import Mathlib

set_option maxHeartbeats 1000000

/-!
# Shallow embedding of `pagerules.go` (cloudflare-go Page Rules client)

The source file defines:
  * `MaybeInt` with a custom `UnmarshalJSON` that accepts a JSON value that is
    either a bare number or a quoted numeric string;
  * the `PageRule` data model together with its detail / list response
    envelopes;
  * six operations (`CreatePageRule`, `ListPageRules`, `PageRule`,
    `ChangePageRule`, `UpdatePageRule`, `DeletePageRule`), each a single call
    to the transport collaborator `api.makeRequest` followed by a
    `json.Unmarshal` of the returned bytes.

The embedding models JSON bytes as Lean `String`s (Lean strings are sequences
of unicode scalar values; Go's raw-byte/UTF-8 distinction is abstracted away),
Go's `int` as `Int` with the explicit `int64` bounds that
`encoding/json`/`strconv.ParseInt` enforce, and the transport collaborator as
a function supplied by the caller.  Go's multiple-return style
`(PageRule, error)` is kept as an explicit pair so that the value returned
alongside an error is observable.
-/

/-- JSON whitespace (RFC 8259), exactly what Go's `encoding/json` skips. -/
def isWs (c : Char) : Bool :=
  c = ' ' || c = '\t' || c = '\n' || c = '\r'

/-- Drop leading JSON whitespace. -/
def skipWs : List Char → List Char
  | [] => []
  | c :: r => if isWs c then skipWs r else c :: r

/-- Decimal digit test, on the scalar value (48–57). -/
def isDig (c : Char) : Bool := 48 ≤ c.toNat && c.toNat ≤ 57

/-- Nonzero decimal digit test (49–57). -/
def isDig19 (c : Char) : Bool := 49 ≤ c.toNat && c.toNat ≤ 57

/-- The character for a digit value below 10. -/
def digitChar (n : Nat) : Char := Char.ofNat (48 + n)

/-- Canonical decimal digits of a natural number, most significant first,
with explicit fuel so that the definition reduces inside the kernel. -/
def natDigitsF : Nat → Nat → List Char
  | 0, _ => []
  | f + 1, n =>
    if n < 10 then [digitChar n]
    else natDigitsF f (n / 10) ++ [digitChar (n % 10)]

/-- Canonical decimal digits of a natural number, most significant first
(the digits `strconv.Itoa` emits for a nonnegative value). -/
def natDigits (n : Nat) : List Char := natDigitsF (n + 1) n

/-- Value of a digit string under a left accumulator (base 10). -/
def digitsVal (acc : Nat) : List Char → Nat
  | [] => acc
  | c :: r => digitsVal (acc * 10 + (c.toNat - 48)) r

/-- A JSON number literal, split into its grammatical parts: sign, integer
part digits, optional fraction digits, optional exponent (sign and digits).
`encoding/json` validates numbers against this grammar before any conversion
to the target integer type. -/
structure NumLit where
  neg : Bool
  ip : List Char
  fp : Option (List Char)
  ep : Option (Option Bool × List Char)
deriving DecidableEq, Repr

/-- Integer part of the JSON number grammar: `0` or a nonzero digit followed
by digits.  A leading zero is never followed by further digits. -/
def parseIntPart : List Char → Option (List Char × List Char)
  | c :: r =>
    if c = '0' then some (['0'], r)
    else if isDig19 c then some (c :: r.takeWhile isDig, r.dropWhile isDig)
    else none
  | [] => none

/-- Optional fraction part: `.` followed by at least one digit. -/
def parseFracPart : List Char → Option (Option (List Char) × List Char)
  | c :: r =>
    if c = '.' then
      let ds := r.takeWhile isDig
      if ds.isEmpty then none else some (some ds, r.dropWhile isDig)
    else some (none, c :: r)
  | [] => some (none, [])

/-- Optional exponent sign. -/
def parseSign : List Char → Option Bool × List Char
  | [] => (none, [])
  | c :: r =>
    if c = '+' then (some false, r)
    else if c = '-' then (some true, r)
    else (none, c :: r)

/-- Optional exponent part: `e`/`E`, optional sign, at least one digit. -/
def parseExpPart : List Char → Option (Option (Option Bool × List Char) × List Char)
  | c :: r =>
    if c = 'e' || c = 'E' then
      let (sg, r1) := parseSign r
      let ds := r1.takeWhile isDig
      if ds.isEmpty then none else some (some (sg, ds), r1.dropWhile isDig)
    else some (none, c :: r)
  | [] => some (none, [])

/-- Integer part, fraction and exponent of a JSON number token, after the
optional sign. -/
def parseNumTail (ng : Bool) (s1 : List Char) : Option (NumLit × List Char) :=
  match parseIntPart s1 with
  | none => none
  | some (ip, s2) =>
    match parseFracPart s2 with
    | none => none
    | some (fp, s3) =>
      match parseExpPart s3 with
      | none => none
      | some (ep, s4) => some (⟨ng, ip, fp, ep⟩, s4)

/-- Parse one JSON number token, returning the literal and the rest of the
input. -/
def parseNumber (s : List Char) : Option (NumLit × List Char) :=
  match s with
  | c :: r => if c = '-' then parseNumTail true r else parseNumTail false (c :: r)
  | [] => parseNumTail false []

/-- `math.MaxInt64`, the upper bound `strconv.ParseInt` enforces for Go `int`
on a 64-bit platform. -/
def i64Max : Int := 9223372036854775807

/-- `math.MinInt64`. -/
def i64Min : Int := -9223372036854775808

/-- Conversion of a JSON number literal into a Go `int`: the literal must
have no fraction and no exponent and its value must fit `int64`, exactly the
conditions under which `encoding/json` stores a number into an `int`
target. -/
def intOfNumLit (l : NumLit) : Option Int :=
  match l.fp, l.ep with
  | none, none =>
    let v : Int := Int.ofNat (digitsVal 0 l.ip)
    let n := if l.neg then -v else v
    if i64Min ≤ n ∧ n ≤ i64Max then some n else none
  | _, _ => none

/-- Value of one hexadecimal digit. -/
def hexVal (c : Char) : Option Nat :=
  if 48 ≤ c.toNat && c.toNat ≤ 57 then some (c.toNat - 48)
  else if 97 ≤ c.toNat && c.toNat ≤ 102 then some (c.toNat - 87)
  else if 65 ≤ c.toNat && c.toNat ≤ 70 then some (c.toNat - 55)
  else none

/-- Character denoted by a JSON `\uXXXX` escape.  Go's decoder replaces a
surrogate half that does not form a pair with U+FFFD rather than failing; the
pairing of two consecutive surrogate escapes is abstracted to the same
replacement character. -/
def uEsc (h1 h2 h3 h4 : Char) : Option Char :=
  match hexVal h1, hexVal h2, hexVal h3, hexVal h4 with
  | some a, some b, some c, some d =>
    let v := a * 4096 + b * 256 + c * 16 + d
    if 0xD800 ≤ v ∧ v ≤ 0xDFFF then some (Char.ofNat 0xFFFD)
    else some (Char.ofNat v)
  | _, _, _, _ => none

/-- Body of a JSON string token, after the opening quote: ordinary characters
(no raw control characters), the nine JSON escapes, and `\uXXXX`.  Returns
the decoded string and the input after the closing quote. -/
def parseStrBody : List Char → List Char → Option (String × List Char)
  | _, [] => none
  | acc, c :: r =>
    if c = '"' then some (String.mk acc.reverse, r)
    else if c = '\\' then
      match r with
      | [] => none
      | e :: r1 =>
        if e = '"' then parseStrBody ('"' :: acc) r1
        else if e = '\\' then parseStrBody ('\\' :: acc) r1
        else if e = '/' then parseStrBody ('/' :: acc) r1
        else if e = 'b' then parseStrBody (Char.ofNat 8 :: acc) r1
        else if e = 'f' then parseStrBody (Char.ofNat 12 :: acc) r1
        else if e = 'n' then parseStrBody ('\n' :: acc) r1
        else if e = 'r' then parseStrBody (Char.ofNat 13 :: acc) r1
        else if e = 't' then parseStrBody ('\t' :: acc) r1
        else if e = 'u' then
          match r1 with
          | h1 :: h2 :: h3 :: h4 :: r2 =>
            match uEsc h1 h2 h3 h4 with
            | some c2 => parseStrBody (c2 :: acc) r2
            | none => none
          | _ => none
        else none
    else if c.toNat < 32 then none
    else parseStrBody (c :: acc) r

/-- Value of one octal digit. -/
def octVal (c : Char) : Option Nat :=
  if 48 ≤ c.toNat && c.toNat ≤ 55 then some (c.toNat - 48) else none

/-- Decode one Go escape sequence (the characters after the backslash),
returning the denoted character and the rest of the input.  Go's escape set
for a double-quoted literal: `\\a \\b \\f \\n \\r \\t \\v \\\\ \\" \\xHH \\uXXXX
\\UXXXXXXXX` and three-digit octal.  JSON's `\\/` is not a Go escape and
fails; `\\u`/`\\U` reject surrogate halves and out-of-range runes
(`utf8.ValidRune`); octal values above 255 fail. -/
def goEsc : List Char → Option (Char × List Char)
  | [] => none
  | e :: r1 =>
    if e = 'a' then some (Char.ofNat 7, r1)
    else if e = 'b' then some (Char.ofNat 8, r1)
    else if e = 'f' then some (Char.ofNat 12, r1)
    else if e = 'n' then some ('\n', r1)
    else if e = 'r' then some (Char.ofNat 13, r1)
    else if e = 't' then some ('\t', r1)
    else if e = 'v' then some (Char.ofNat 11, r1)
    else if e = '\\' then some ('\\', r1)
    else if e = '"' then some ('"', r1)
    else if e = 'x' then
      match r1 with
      | h1 :: h2 :: r2 =>
        match hexVal h1, hexVal h2 with
        | some a, some b => some (Char.ofNat (a * 16 + b), r2)
        | _, _ => none
      | _ => none
    else if e = 'u' then
      match r1 with
      | h1 :: h2 :: h3 :: h4 :: r2 =>
        match hexVal h1, hexVal h2, hexVal h3, hexVal h4 with
        | some a, some b, some c2, some d =>
          let v := a * 4096 + b * 256 + c2 * 16 + d
          if 0xD800 ≤ v ∧ v ≤ 0xDFFF then none
          else some (Char.ofNat v, r2)
        | _, _, _, _ => none
      | _ => none
    else if e = 'U' then
      match r1 with
      | h1 :: h2 :: h3 :: h4 :: h5 :: h6 :: h7 :: h8 :: r2 =>
        match hexVal h1, hexVal h2, hexVal h3, hexVal h4,
              hexVal h5, hexVal h6, hexVal h7, hexVal h8 with
        | some a, some b, some c2, some d, some e1, some e2, some e3, some e4 =>
          let v := ((((((a * 16 + b) * 16 + c2) * 16 + d) * 16 + e1) * 16 + e2)
            * 16 + e3) * 16 + e4
          if (0xD800 ≤ v ∧ v ≤ 0xDFFF) ∨ 0x10FFFF < v then none
          else some (Char.ofNat v, r2)
        | _, _, _, _, _, _, _, _ => none
      | _ => none
    else
      match octVal e with
      | some o1 =>
        match r1 with
        | c2 :: c3 :: r2 =>
          match octVal c2, octVal c3 with
          | some o2, some o3 =>
            let v := o1 * 64 + o2 * 8 + o3
            if v ≤ 255 then some (Char.ofNat v, r2) else none
          | _, _ => none
        | _ => none
      | none => none

/-- Body of `strconv.Unquote` on a double-quoted Go literal, after the
opening quote: plain characters are kept (a raw newline fails), a backslash
starts an escape decoded by `goEsc`, and the closing quote must end the
input.  The fuel only bounds recursion depth; each step consumes at least
one character, so `length + 1` fuel always suffices. -/
def goUnquoteBody : Nat → List Char → List Char → Option String
  | 0, _, _ => none
  | f + 1, acc, l =>
    match l with
    | [] => none
    | c :: r =>
      if c = '"' then (if r.isEmpty then some (String.mk acc.reverse) else none)
      else if c = '\\' then
        match goEsc r with
        | some (d, r2) => goUnquoteBody f (d :: acc) r2
        | none => none
      else if c = '\n' then none
      else goUnquoteBody f (c :: acc) r

def goUnquote (s : String) : Option String :=
  match s.data with
  | '"' :: r => goUnquoteBody (r.length + 1) [] r
  | _ => none

/-- Whether `json.Unmarshal(rawData, &js)` with a `string` target returns a
nil error: the input must be a JSON string token (or the JSON literal
`null`, which unmarshals into any target as a no-op) surrounded by optional
whitespace. -/
def jsonUnmarshalStringOk (s : String) : Bool :=
  match skipWs s.data with
  | [] => false
  | c :: r =>
    if c = '"' then
      match parseStrBody [] r with
      | some (_, rest) => (skipWs rest).isEmpty
      | none => false
    else
      (c :: r).take 4 = ['n', 'u', 'l', 'l'] && (skipWs ((c :: r).drop 4)).isEmpty

/-- `json.Unmarshal(data, &v)` with an `int` target: `some n` when the call
returns a nil error leaving `v = n`.  The input must be `null` (a no-op that
leaves `v` at `0`) or a JSON number token with no fraction or exponent whose
value fits `int64`, surrounded by optional whitespace.  On every failure Go
leaves `v` at `0` (the whole input is validated before any store, and a
number that fails the `int` conversion is never stored). -/
def jsonUnmarshalInt (s : String) : Option Int :=
  let l := skipWs s.data
  if l.take 4 = ['n', 'u', 'l', 'l'] then
    if (skipWs (l.drop 4)).isEmpty then some 0 else none
  else
    match parseNumber l with
    | some (lit, rest) => if (skipWs rest).isEmpty then intOfNumLit lit else none
    | none => none

/-- Which step of `MaybeInt.UnmarshalJSON` produced the returned error. -/
inductive MIErr where
  | unquoteErr : MIErr
  | parseErr : MIErr
deriving DecidableEq, Repr

/-- `MaybeInt.UnmarshalJSON` (pagerules.go:113-130).  `prior` is the value
`*f` held before the call; the result pairs the value `*f` holds after the
call with the returned error.  Mirrors the source exactly: if the raw bytes
unmarshal into a string, they are `strconv.Unquote`d (an error here returns
before `*f` is assigned, so `*f` keeps `prior`); the resulting text (or the
raw bytes when the string branch is not taken) is unmarshalled into an `int`
`v`, and `*f = MaybeInt(v)` is executed before the error is returned, so a
parse failure at this step stores `0`. -/
def maybeIntUnmarshal (rawData : String) (prior : Int) : Int × Option MIErr :=
  if jsonUnmarshalStringOk rawData then
    match goUnquote rawData with
    | none => (prior, some MIErr.unquoteErr)
    | some data =>
      match jsonUnmarshalInt data with
      | some v => (v, none)
      | none => (0, some MIErr.parseErr)
  else
    match jsonUnmarshalInt rawData with
    | some v => (v, none)
    | none => (0, some MIErr.parseErr)

/-- The canonical decimal rendering of a Go `int` (`strconv.Itoa` /
`encoding/json` number output). -/
def intRepr (n : Int) : String :=
  String.mk (if n < 0 then '-' :: natDigits n.natAbs else natDigits n.natAbs)

/-- Surround text with JSON quotes (used for inputs whose contents need no
escaping). -/
def quoted (s : String) : String :=
  String.mk ('"' :: s.data ++ ['"'])

/-! ## A JSON value AST

`json.Unmarshal` of the response envelopes is modelled as parsing the bytes
into this AST and then walking it with Go's (lenient) struct-decoding rules.
Arrays and objects are separate mutual inductives so that structural mutual
recursion and induction are available. -/

mutual
inductive Json where
  | null : Json
  | bool : Bool → Json
  | num : NumLit → Json
  | str : String → Json
  | arr : JsonArr → Json
  | obj : JsonObj → Json
deriving DecidableEq, Repr
inductive JsonArr where
  | nil : JsonArr
  | cons : Json → JsonArr → JsonArr
deriving DecidableEq, Repr
inductive JsonObj where
  | nil : JsonObj
  | cons : String → Json → JsonObj → JsonObj
deriving DecidableEq, Repr
end

/-- Build a `JsonArr` from a list. -/
def jarrOf : List Json → JsonArr
  | [] => JsonArr.nil
  | v :: r => JsonArr.cons v (jarrOf r)

/-- The lowercase hexadecimal digit for a value below 16. -/
def hexDig (n : Nat) : Char :=
  if n < 10 then Char.ofNat (48 + n) else Char.ofNat (87 + n)

/-- One character of JSON string output, escaped as `encoding/json` escapes
it (quotes, backslashes, and control characters; the HTML-safe escaping of
`<`, `>`, `&` that Go also applies is orthogonal to every property below and
is not modelled, and the short forms Go uses for `\n`, `\r`, `\t` are
uniformly written as the equivalent `\u00XX`, which decodes identically). -/
def escapeChar (c : Char) : List Char :=
  if c = '"' then ['\\', '"']
  else if c = '\\' then ['\\', '\\']
  else if c.toNat < 32 then
    ['\\', 'u', '0', '0', hexDig (c.toNat / 16), hexDig (c.toNat % 16)]
  else [c]

/-- Escape every character of a JSON string body. -/
def escapeBody : List Char → List Char
  | [] => []
  | c :: r => escapeChar c ++ escapeBody r

/-- Render the fraction part of a number literal. -/
def fracRender : Option (List Char) → List Char
  | some ds => '.' :: ds
  | none => []

/-- Render the sign of an exponent. -/
def signRender : Option Bool → List Char
  | some true => ['-']
  | some false => ['+']
  | none => []

/-- Render the exponent part of a number literal. -/
def expRender : Option (Option Bool × List Char) → List Char
  | some (sg, ds) => 'e' :: signRender sg ++ ds
  | none => []

/-- Render a JSON number literal back to its characters. -/
def renderNum (l : NumLit) : List Char :=
  (if l.neg then ['-'] else []) ++ l.ip ++ fracRender l.fp ++ expRender l.ep

/-- Render a JSON string token (with quotes). -/
def renderStr (s : String) : List Char :=
  '"' :: escapeBody s.data ++ ['"']

mutual
def renderV : Json → List Char
  | Json.null => ['n', 'u', 'l', 'l']
  | Json.bool true => ['t', 'r', 'u', 'e']
  | Json.bool false => ['f', 'a', 'l', 's', 'e']
  | Json.num l => renderNum l
  | Json.str s => renderStr s
  | Json.arr a => '[' :: renderA a ++ [']']
  | Json.obj o => Char.ofNat 123 :: renderO o ++ [Char.ofNat 125]
def renderA : JsonArr → List Char
  | JsonArr.nil => []
  | JsonArr.cons v JsonArr.nil => renderV v
  | JsonArr.cons v (JsonArr.cons w a) =>
    renderV v ++ ',' :: renderA (JsonArr.cons w a)
def renderO : JsonObj → List Char
  | JsonObj.nil => []
  | JsonObj.cons k v JsonObj.nil => renderStr k ++ ':' :: renderV v
  | JsonObj.cons k v (JsonObj.cons k2 w o) =>
    renderStr k ++ ':' :: renderV v ++ ',' :: renderO (JsonObj.cons k2 w o)
end

/-- Render to a `String` (the bytes `json.Marshal` produces, modulo the
abstractions noted at `escapeChar`). -/
def renderJson (j : Json) : String := String.mk (renderV j)

/-- A well-formed integer part: `0`, or a nonzero digit followed by
digits. -/
def ipWF : List Char → Bool
  | [] => false
  | c :: r => (c = '0' && r.isEmpty) || (isDig19 c && r.all isDig)

/-- Well-formedness of a number literal: what the parser can produce.  The
rendering of a well-formed literal parses back to it. -/
def wfNum (l : NumLit) : Bool :=
  ipWF l.ip &&
  (match l.fp with
   | some ds => !ds.isEmpty && ds.all isDig
   | none => true) &&
  (match l.ep with
   | some (_, ds) => !ds.isEmpty && ds.all isDig
   | none => true)

mutual
def wfV : Json → Bool
  | Json.null => true
  | Json.bool _ => true
  | Json.num l => wfNum l
  | Json.str _ => true
  | Json.arr a => wfA a
  | Json.obj o => wfO o
def wfA : JsonArr → Bool
  | JsonArr.nil => true
  | JsonArr.cons v a => wfV v && wfA a
def wfO : JsonObj → Bool
  | JsonObj.nil => true
  | JsonObj.cons _ v o => wfV v && wfO o
end

mutual
def sizeV : Json → Nat
  | Json.null => 1
  | Json.bool _ => 1
  | Json.num _ => 1
  | Json.str _ => 1
  | Json.arr a => 1 + sizeA a
  | Json.obj o => 1 + sizeO o
def sizeA : JsonArr → Nat
  | JsonArr.nil => 1
  | JsonArr.cons v a => 1 + sizeV v + sizeA a
def sizeO : JsonObj → Nat
  | JsonObj.nil => 1
  | JsonObj.cons _ v o => 1 + sizeV v + sizeO o
end

/-- The four-character tail of the literal `null`. -/
def parseNullTail : List Char → Option (Json × List Char)
  | 'u' :: 'l' :: 'l' :: rest => some (Json.null, rest)
  | _ => none

/-- The tail of the literal `true`. -/
def parseTrueTail : List Char → Option (Json × List Char)
  | 'r' :: 'u' :: 'e' :: rest => some (Json.bool true, rest)
  | _ => none

/-- The tail of the literal `false`. -/
def parseFalseTail : List Char → Option (Json × List Char)
  | 'a' :: 'l' :: 's' :: 'e' :: rest => some (Json.bool false, rest)
  | _ => none

/-- A string value (the input starts after the opening quote). -/
def parseStrVal (r : List Char) : Option (Json × List Char) :=
  match parseStrBody [] r with
  | some (s, rest) => some (Json.str s, rest)
  | none => none

/-- A number value. -/
def parseNumVal (s : List Char) : Option (Json × List Char) :=
  match parseNumber s with
  | some (l, rest) => some (Json.num l, rest)
  | none => none

mutual
/-- Fueled recursive-descent parser for one JSON value.  The caller has
already skipped leading whitespace. -/
def parseVal : Nat → List Char → Option (Json × List Char)
  | 0, _ => none
  | _ + 1, [] => none
  | f + 1, c :: r =>
    if c = '"' then parseStrVal r
    else if c = '[' then
      match skipWs r with
      | [] => none
      | c2 :: r2 =>
        if c2 = ']' then some (Json.arr JsonArr.nil, r2)
        else
          match parseElems f (c2 :: r2) with
          | some (a, rest) => some (Json.arr a, rest)
          | none => none
    else if c = Char.ofNat 123 then
      match skipWs r with
      | r2 =>
        if r2.head? = some (Char.ofNat 125) then
          some (Json.obj JsonObj.nil, r2.tail)
        else
          match parseMembers f r2 with
          | some (o, rest) => some (Json.obj o, rest)
          | none => none
    else if c = 'n' then parseNullTail r
    else if c = 't' then parseTrueTail r
    else if c = 'f' then parseFalseTail r
    else parseNumVal (c :: r)
/-- Elements of a nonempty array, up to and including the closing bracket. -/
def parseElems : Nat → List Char → Option (JsonArr × List Char)
  | 0, _ => none
  | f + 1, s =>
    match parseVal f s with
    | none => none
    | some (v, r) =>
      match skipWs r with
      | [] => none
      | c :: r2 =>
        if c = ',' then
          match parseElems f (skipWs r2) with
          | some (a, rest) => some (JsonArr.cons v a, rest)
          | none => none
        else if c = ']' then some (JsonArr.cons v JsonArr.nil, r2)
        else none
/-- Members of a nonempty object, up to and including the closing brace. -/
def parseMembers : Nat → List Char → Option (JsonObj × List Char)
  | 0, _ => none
  | f + 1, s =>
    match s with
    | '"' :: r =>
      match parseStrBody [] r with
      | none => none
      | some (k, r1) =>
        match skipWs r1 with
        | ':' :: r2 =>
          match parseVal f (skipWs r2) with
          | none => none
          | some (v, r3) =>
            match skipWs r3 with
            | [] => none
            | c :: r4 =>
              if c = ',' then
                match parseMembers f (skipWs r4) with
                | some (o, rest) => some (JsonObj.cons k v o, rest)
                | none => none
              else if c = Char.ofNat 125 then
                some (JsonObj.cons k v JsonObj.nil, r4)
              else none
        | _ => none
    | _ => none
end

/-- Parse a whole JSON document: optional whitespace, one value, optional
whitespace, end of input (Go's `checkValid` rejects trailing data).  The
fuel `2 * length + 8` dominates `sizeV` of any value the input can denote. -/
def parseJson (s : String) : Option Json :=
  match parseVal (2 * s.data.length + 8) (skipWs s.data) with
  | some (j, rest) => if (skipWs rest).isEmpty then some j else none
  | none => none

/-! ## The Page Rules data model (pagerules.go:17-107) -/

/-- The anonymous `Constraint` struct inside `PageRuleTarget`. -/
structure PRConstraint where
  operator : String
  value : String
deriving DecidableEq, Repr

/-- `PageRuleTarget` (pagerules.go:17-23). -/
structure PageRuleTarget where
  target : String
  constraint : PRConstraint
deriving DecidableEq, Repr

/-- `PageRuleAction` (pagerules.go:51-54).  The Go `Value interface{}` is
modelled as an arbitrary JSON value; a Go `nil` is `Json.null`. -/
structure PageRuleAction where
  id : String
  value : Json
deriving DecidableEq, Repr

/-- `time.Time`, abstracted to its RFC 3339 wire rendering.  The zero
`time.Time` marshals as `0001-01-01T00:00:00Z`; the calendar validation Go
performs when parsing a timestamp string is not modelled. -/
structure GoTime where
  rep : String
deriving DecidableEq, Repr

/-- The zero `time.Time`'s rendering. -/
def goTimeZero : GoTime := ⟨"0001-01-01T00:00:00Z"⟩

/-- `PageRule` (pagerules.go:83-91).  Field order is the struct order, which
fixes the key order `json.Marshal` emits.  `Priority` has Go type `MaybeInt`
(an `int`), modelled as `Int`. -/
structure PageRule where
  id : String
  targets : List PageRuleTarget
  actions : List PageRuleAction
  priority : Int
  status : String
  modifiedOn : GoTime
  createdOn : GoTime
deriving DecidableEq, Repr

/-- The zero value `PageRule{}` that every operation returns on error. -/
def emptyPageRule : PageRule :=
  { id := "", targets := [], actions := [], priority := 0, status := ""
    modifiedOn := ⟨""⟩, createdOn := ⟨""⟩ }

/-- `PageRuleDetailResponse` (pagerules.go:94-99). -/
structure PageRuleDetailResponse where
  success : Bool
  errors : List String
  messages : List String
  result : PageRule
deriving DecidableEq, Repr

/-- `PageRulesResponse` (pagerules.go:102-107). -/
structure PageRulesResponse where
  success : Bool
  errors : List String
  messages : List String
  result : List PageRule
deriving DecidableEq, Repr

/-! ## `json.Marshal` of a `PageRule` (the request body) -/

/-- Marshal one target. -/
def encTarget (t : PageRuleTarget) : Json :=
  Json.obj (JsonObj.cons "target" (Json.str t.target)
    (JsonObj.cons "constraint"
      (Json.obj (JsonObj.cons "operator" (Json.str t.constraint.operator)
        (JsonObj.cons "value" (Json.str t.constraint.value) JsonObj.nil)))
      JsonObj.nil))

/-- Marshal one action. -/
def encAction (a : PageRuleAction) : Json :=
  Json.obj (JsonObj.cons "id" (Json.str a.id)
    (JsonObj.cons "value" a.value JsonObj.nil))

/-- The number literal `json.Marshal` emits for an `int`. -/
def intToNumLit (n : Int) : NumLit :=
  ⟨decide (n < 0), natDigits n.natAbs, none, none⟩

/-- Append a list of key/value pairs onto a `JsonObj` tail. -/
def jobjOf : List (String × Json) → JsonObj
  | [] => JsonObj.nil
  | (k, v) :: r => JsonObj.cons k v (jobjOf r)

/-- `json.Marshal` of a `PageRule`, as a JSON value.  The `id` field has tag
`json:"id,omitempty"` and is dropped when empty.  `ModifiedOn` and
`CreatedOn` also carry `,omitempty`, but Go's `omitempty` never treats a
struct value such as `time.Time` as empty, so both keys are always emitted
(the zero time as `"0001-01-01T00:00:00Z"`); the embedding reproduces that
behaviour.  `Priority` (`MaybeInt` has no custom marshaller) is emitted as a
bare number. -/
def encPageRule (r : PageRule) : Json :=
  Json.obj (jobjOf
    ((if r.id = "" then [] else [("id", Json.str r.id)]) ++
     [("targets", Json.arr (jarrOf (r.targets.map encTarget))),
      ("actions", Json.arr (jarrOf (r.actions.map encAction))),
      ("priority", Json.num (intToNumLit r.priority)),
      ("status", Json.str r.status),
      ("modified_on", Json.str r.modifiedOn.rep),
      ("created_on", Json.str r.createdOn.rep)]))

/-- The list of keys of a marshalled object (used to state which fields a
request body contains). -/
def objKeys : JsonObj → List String
  | JsonObj.nil => []
  | JsonObj.cons k _ o => k :: objKeys o

/-- Top-level keys of a marshalled JSON value. -/
def jsonKeys : Json → List String
  | Json.obj o => objKeys o
  | _ => []

/-! ## `json.Unmarshal` into the response structs

Go's struct decoding is lenient: a missing key leaves the field at its zero
value, `null` is a no-op for every field, unknown keys are ignored, a later
duplicate key overwrites an earlier one, and a value of the wrong shape is an
error.  (Go's case-insensitive key fallback is not modelled; the server keys
match exactly.)  The `priority` field is decoded by handing the bytes of the
value to `MaybeInt.UnmarshalJSON`; re-rendering the parsed value reproduces
those bytes up to whitespace and escape normalisation, which
`maybeIntUnmarshal` does not distinguish. -/

/-- Last binding of a key in an object (later duplicate keys overwrite). -/
def lookupLast (k : String) : JsonObj → Option Json
  | JsonObj.nil => none
  | JsonObj.cons k2 v o =>
    match lookupLast k o with
    | some w => some w
    | none => if k2 = k then some v else none

/-- Decode a field into a `string`. -/
def decStringF : Option Json → Option String
  | none => some ""
  | some Json.null => some ""
  | some (Json.str s) => some s
  | some _ => none

/-- Decode a field into a `bool`. -/
def decBoolF : Option Json → Option Bool
  | none => some false
  | some Json.null => some false
  | some (Json.bool b) => some b
  | some _ => none

/-- Decode one element of a `[]string`. -/
def decStringElem : Json → Option String
  | Json.null => some ""
  | Json.str s => some s
  | _ => none

/-- Decode the elements of an array with a given element decoder. -/
def decArrWith {α : Type} (f : Json → Option α) : JsonArr → Option (List α)
  | JsonArr.nil => some []
  | JsonArr.cons v a =>
    match f v, decArrWith f a with
    | some x, some xs => some (x :: xs)
    | _, _ => none

/-- Decode a field into a `[]string`. -/
def decStringListF : Option Json → Option (List String)
  | none => some []
  | some Json.null => some []
  | some (Json.arr a) => decArrWith decStringElem a
  | some _ => none

/-- Decode a field into a `time.Time` (abstracted: any JSON string is kept
as the timestamp's rendering; Go additionally validates RFC 3339). -/
def decTimeF : Option Json → Option GoTime
  | none => some ⟨""⟩
  | some Json.null => some ⟨""⟩
  | some (Json.str s) => some ⟨s⟩
  | some _ => none

/-- Decode the `priority` field: Go hands the raw bytes of the value to
`MaybeInt.UnmarshalJSON` on a freshly zeroed field. -/
def decPriorityF : Option Json → Option Int
  | none => some 0
  | some j =>
    match maybeIntUnmarshal (renderJson j) 0 with
    | (v, none) => some v
    | (_, some _) => none

/-- Decode the `constraint` struct. -/
def decConstraintF : Option Json → Option PRConstraint
  | none => some ⟨"", ""⟩
  | some Json.null => some ⟨"", ""⟩
  | some (Json.obj o) =>
    match decStringF (lookupLast "operator" o), decStringF (lookupLast "value" o) with
    | some op, some v => some ⟨op, v⟩
    | _, _ => none
  | some _ => none

/-- Decode one `PageRuleTarget`. -/
def decTarget : Json → Option PageRuleTarget
  | Json.null => some ⟨"", ⟨"", ""⟩⟩
  | Json.obj o =>
    match decStringF (lookupLast "target" o), decConstraintF (lookupLast "constraint" o) with
    | some t, some c => some ⟨t, c⟩
    | _, _ => none
  | _ => none

/-- Decode one `PageRuleAction`.  The `Value interface{}` field takes the
JSON value as is (`nil` when absent or `null`). -/
def decAction : Json → Option PageRuleAction
  | Json.null => some ⟨"", Json.null⟩
  | Json.obj o =>
    match decStringF (lookupLast "id" o) with
    | some i => some ⟨i, (lookupLast "value" o).getD Json.null⟩
    | none => none
  | _ => none

/-- Decode a field into a `[]PageRuleTarget`. -/
def decTargetsF : Option Json → Option (List PageRuleTarget)
  | none => some []
  | some Json.null => some []
  | some (Json.arr a) => decArrWith decTarget a
  | some _ => none

/-- Decode a field into a `[]PageRuleAction`. -/
def decActionsF : Option Json → Option (List PageRuleAction)
  | none => some []
  | some Json.null => some []
  | some (Json.arr a) => decArrWith decAction a
  | some _ => none

/-- Decode a `PageRule` value. -/
def decPageRule : Json → Option PageRule
  | Json.null => some emptyPageRule
  | Json.obj o =>
    match decStringF (lookupLast "id" o),
          decTargetsF (lookupLast "targets" o),
          decActionsF (lookupLast "actions" o),
          decPriorityF (lookupLast "priority" o),
          decStringF (lookupLast "status" o),
          decTimeF (lookupLast "modified_on" o),
          decTimeF (lookupLast "created_on" o) with
    | some i, some ts, some as_, some p, some st, some mo, some co =>
      some ⟨i, ts, as_, p, st, mo, co⟩
    | _, _, _, _, _, _, _ => none
  | _ => none

/-- Decode a field into the `Result PageRule`. -/
def decResultF : Option Json → Option PageRule
  | none => some emptyPageRule
  | some j => decPageRule j

/-- Decode a field into the `Result []PageRule`. -/
def decResultsF : Option Json → Option (List PageRule)
  | none => some []
  | some Json.null => some []
  | some (Json.arr a) => decArrWith decPageRule a
  | some _ => none

/-- Decode a `PageRuleDetailResponse` from a JSON value. -/
def decDetail : Json → Option PageRuleDetailResponse
  | Json.null => some ⟨false, [], [], emptyPageRule⟩
  | Json.obj o =>
    match decBoolF (lookupLast "success" o),
          decStringListF (lookupLast "errors" o),
          decStringListF (lookupLast "messages" o),
          decResultF (lookupLast "result" o) with
    | some su, some er, some ms, some re => some ⟨su, er, ms, re⟩
    | _, _, _, _ => none
  | _ => none

/-- Decode a `PageRulesResponse` from a JSON value. -/
def decList : Json → Option PageRulesResponse
  | Json.null => some ⟨false, [], [], []⟩
  | Json.obj o =>
    match decBoolF (lookupLast "success" o),
          decStringListF (lookupLast "errors" o),
          decStringListF (lookupLast "messages" o),
          decResultsF (lookupLast "result" o) with
    | some su, some er, some ms, some re => some ⟨su, er, ms, re⟩
    | _, _, _, _ => none
  | _ => none

/-- `json.Unmarshal(res, &r)` with `r : PageRuleDetailResponse`: `some` iff
the call returns a nil error. -/
def unmarshalDetail (s : String) : Option PageRuleDetailResponse :=
  (parseJson s).bind decDetail

/-- `json.Unmarshal(res, &r)` with `r : PageRulesResponse`. -/
def unmarshalList (s : String) : Option PageRulesResponse :=
  (parseJson s).bind decList

/-! ## The API operations (pagerules.go:139-258)

`api.makeRequest` (defined in api.go, outside this file's source) is the
transport collaborator: given a method, a URI and an optional body it returns
response bytes or a transport error.  It is modelled as a function field,
polymorphic in the transport error type `ε` so that a probe transport can
expose the request it receives.  Each operation mirrors its Go body: build
the URI by string concatenation, call the transport once, wrap a transport
error, otherwise unmarshal and wrap a decode error, otherwise return the
envelope's `Result`. -/

/-- Modelled from the spec: the wrap context `errMakeRequestError` attached
with `errors.Wrap` lives in api.go, which is not part of the given source;
the spec calls the wrapped transport failure "request failed". -/
def errMakeRequestError : String := "request failed"

/-- Modelled from the spec: the wrap context `errUnmarshalError` from api.go;
the spec calls the wrapped decode failure "response decode failed". -/
def errUnmarshalError : String := "response decode failed"

/-- An error returned by an operation: the underlying cause wrapped with the
context naming the stage that failed. -/
inductive OpErr (ε : Type) where
  | requestFailed : ε → OpErr ε
  | decodeFailed : OpErr ε
deriving DecidableEq, Repr

/-- The `errors.Wrap` context carried by an operation error. -/
def OpErr.ctx {ε : Type} : OpErr ε → String
  | OpErr.requestFailed _ => errMakeRequestError
  | OpErr.decodeFailed => errUnmarshalError

/-- The slice of the `API` client the operations use: `makeRequest`. -/
structure API (ε : Type) where
  makeRequest : String → String → Option PageRule → Except ε String

/-- `API.CreatePageRule` (pagerules.go:139-151). -/
def API.CreatePageRule {ε : Type} (api : API ε) (zoneID : String)
    (rule : PageRule) : PageRule × Option (OpErr ε) :=
  let uri := "/zones/" ++ zoneID ++ "/pagerules"
  match api.makeRequest "POST" uri (some rule) with
  | Except.error e => (emptyPageRule, some (OpErr.requestFailed e))
  | Except.ok res =>
    match unmarshalDetail res with
    | none => (emptyPageRule, some OpErr.decodeFailed)
    | some r => (r.result, none)

/-- `API.ListPageRules` (pagerules.go:160-172). -/
def API.ListPageRules {ε : Type} (api : API ε) (zoneID : String) :
    List PageRule × Option (OpErr ε) :=
  let uri := "/zones/" ++ zoneID ++ "/pagerules"
  match api.makeRequest "GET" uri none with
  | Except.error e => ([], some (OpErr.requestFailed e))
  | Except.ok res =>
    match unmarshalList res with
    | none => ([], some OpErr.decodeFailed)
    | some r => (r.result, none)

/-- `API.ChangePageRule` (pagerules.go:203-215). -/
def API.ChangePageRule {ε : Type} (api : API ε) (zoneID ruleID : String)
    (rule : PageRule) : PageRule × Option (OpErr ε) :=
  let uri := "/zones/" ++ zoneID ++ "/pagerules/" ++ ruleID
  match api.makeRequest "PATCH" uri (some rule) with
  | Except.error e => (emptyPageRule, some (OpErr.requestFailed e))
  | Except.ok res =>
    match unmarshalDetail res with
    | none => (emptyPageRule, some OpErr.decodeFailed)
    | some r => (r.result, none)

/-- `API.UpdatePageRule` (pagerules.go:225-237). -/
def API.UpdatePageRule {ε : Type} (api : API ε) (zoneID ruleID : String)
    (rule : PageRule) : PageRule × Option (OpErr ε) :=
  let uri := "/zones/" ++ zoneID ++ "/pagerules/" ++ ruleID
  match api.makeRequest "PUT" uri (some rule) with
  | Except.error e => (emptyPageRule, some (OpErr.requestFailed e))
  | Except.ok res =>
    match unmarshalDetail res with
    | none => (emptyPageRule, some OpErr.decodeFailed)
    | some r => (r.result, none)

/-- `API.DeletePageRule` (pagerules.go:246-258): the decoded envelope is
discarded, only the error is returned. -/
def API.DeletePageRule {ε : Type} (api : API ε) (zoneID ruleID : String) :
    Option (OpErr ε) :=
  let uri := "/zones/" ++ zoneID ++ "/pagerules/" ++ ruleID
  match api.makeRequest "DELETE" uri none with
  | Except.error e => some (OpErr.requestFailed e)
  | Except.ok res =>
    match unmarshalDetail res with
    | none => some OpErr.decodeFailed
    | some _ => none

/-- `API.PageRule`, the get operation (pagerules.go:181-193).  Declared after
the other operations because, inside the `API` namespace, its name shadows
the `PageRule` type used in their signatures. -/
def API.PageRule {ε : Type} (api : API ε) (zoneID ruleID : String) :
    PageRule × Option (OpErr ε) :=
  let uri := "/zones/" ++ zoneID ++ "/pagerules/" ++ ruleID
  match api.makeRequest "GET" uri none with
  | Except.error e => (emptyPageRule, some (OpErr.requestFailed e))
  | Except.ok res =>
    match unmarshalDetail res with
    | none => (emptyPageRule, some OpErr.decodeFailed)
    | some r => (r.result, none)

/-- A request as the transport sees it: method, URI, optional body. -/
structure ReqView where
  method : String
  uri : String
  body : Option PageRule
deriving DecidableEq, Repr

/-- The probe transport: fails every call with a transport error recording
exactly the request it received. -/
def probeAPI : API ReqView :=
  ⟨fun m u b => Except.error ⟨m, u, b⟩⟩

/-- A transport that succeeds every call with the fixed bytes `s`. -/
def constAPI (s : String) : API Unit :=
  ⟨fun _ _ _ => Except.ok s⟩

/-- A server-shaped detail envelope wrapping a result value. -/
def detailEnvelope (result : Json) : Json :=
  Json.obj (jobjOf
    [("success", Json.bool true),
     ("errors", Json.arr JsonArr.nil),
     ("messages", Json.arr JsonArr.nil),
     ("result", result)])

/-- The echo transport: replies with a detail envelope wrapping exactly the
marshalled rule it received as the request body (the round-trip property's
"equivalent rule"). -/
def echoAPI : API Unit :=
  ⟨fun _ _ b => Except.ok (renderJson (detailEnvelope
    (match b with
     | some r => encPageRule r
     | none => Json.null)))⟩

/-- The rule of the spec's first end-to-end scenario, used to instantiate the
round-trip property. -/
def sampleRule : PageRule :=
  { id := ""
    targets := [⟨"url", ⟨"matches", "*example.com/images/*"⟩⟩]
    actions := [⟨"cache_level", Json.str "bypass"⟩]
    priority := 1
    status := "active"
    modifiedOn := goTimeZero
    createdOn := goTimeZero }

/-! ## Claims about the operations -/

/-- **C7.** For all zone and rule identifier strings, each operation issues
exactly one request, with the method, path and body of its template row; the
path is plain string concatenation of the identifiers (no URL-escaping).  The
probe transport records the one request it receives, and the recorded request
is exactly the template one. -/
theorem c7_request_template (z rid : String) (rule : PageRule) :
    (probeAPI.CreatePageRule z rule).2
      = some (OpErr.requestFailed ⟨"POST", "/zones/" ++ z ++ "/pagerules", some rule⟩)
    ∧ (probeAPI.ListPageRules z).2
      = some (OpErr.requestFailed ⟨"GET", "/zones/" ++ z ++ "/pagerules", none⟩)
    ∧ (probeAPI.PageRule z rid).2
      = some (OpErr.requestFailed ⟨"GET", "/zones/" ++ z ++ "/pagerules/" ++ rid, none⟩)
    ∧ (probeAPI.ChangePageRule z rid rule).2
      = some (OpErr.requestFailed ⟨"PATCH", "/zones/" ++ z ++ "/pagerules/" ++ rid, some rule⟩)
    ∧ (probeAPI.UpdatePageRule z rid rule).2
      = some (OpErr.requestFailed ⟨"PUT", "/zones/" ++ z ++ "/pagerules/" ++ rid, some rule⟩)
    ∧ probeAPI.DeletePageRule z rid
      = some (OpErr.requestFailed ⟨"DELETE", "/zones/" ++ z ++ "/pagerules/" ++ rid, none⟩) :=
  ⟨rfl, rfl, rfl, rfl, rfl, rfl⟩

/-- **C2.** Whenever the transport's bytes decode as a structurally valid
envelope — whatever `success` and `errors` hold — every operation returns a
nil error and passes the decoded `Result` through unchanged. -/
theorem c2_envelope_passthrough (s : String) (z rid : String) (rule : PageRule) :
    (∀ env, unmarshalDetail s = some env →
      (constAPI s).CreatePageRule z rule = (env.result, none)
      ∧ (constAPI s).PageRule z rid = (env.result, none)
      ∧ (constAPI s).ChangePageRule z rid rule = (env.result, none)
      ∧ (constAPI s).UpdatePageRule z rid rule = (env.result, none)
      ∧ (constAPI s).DeletePageRule z rid = none)
    ∧ (∀ env, unmarshalList s = some env →
      (constAPI s).ListPageRules z = (env.result, none)) := by
  constructor
  · intro env h
    refine ⟨?_, ?_, ?_, ?_, ?_⟩ <;>
      simp [API.CreatePageRule, API.PageRule, API.ChangePageRule,
        API.UpdatePageRule, API.DeletePageRule, constAPI, h]
  · intro env h
    simp [API.ListPageRules, constAPI, h]

/-- Witness for C2: the bytes `{}` decode (leniently) as both envelope
shapes, with `success = false` and empty lists, and every operation passes
the zero result through with a nil error. -/
theorem c2_envelope_passthrough_witness :
    unmarshalDetail "\x7b\x7d" = some ⟨false, [], [], emptyPageRule⟩
    ∧ (constAPI "\x7b\x7d").CreatePageRule "z" emptyPageRule = (emptyPageRule, none)
    ∧ (constAPI "\x7b\x7d").DeletePageRule "z" "r" = none
    ∧ unmarshalList "\x7b\x7d" = some ⟨false, [], [], []⟩
    ∧ (constAPI "\x7b\x7d").ListPageRules "z" = ([], none) := by
  have h := c2_envelope_passthrough "\x7b\x7d" "z" "r" emptyPageRule
  have hd : unmarshalDetail "\x7b\x7d" = some ⟨false, [], [], emptyPageRule⟩ := by decide
  have hl : unmarshalList "\x7b\x7d" = some ⟨false, [], [], []⟩ := by decide
  exact ⟨hd, (h.1 _ hd).1, (h.1 _ hd).2.2.2.2, hl, h.2 _ hl⟩

/-- **C3.** Exactly two error kinds, never conflated: a transport error is
returned wrapped with the request-failed context (no decode is attempted —
the outcome is fixed by the transport error alone); bytes that do not
unmarshal into the expected envelope yield the decode-failed context.  The
two contexts are distinct. -/
theorem c3_error_kinds {ε : Type} (e : ε) (s : String) (z rid : String) (rule : PageRule) :
    ((API.mk (fun _ _ _ => Except.error e)).CreatePageRule z rule
        = (emptyPageRule, some (OpErr.requestFailed e))
      ∧ (API.mk (fun _ _ _ => Except.error e)).ListPageRules z
        = ([], some (OpErr.requestFailed e))
      ∧ (API.mk (fun _ _ _ => Except.error e)).PageRule z rid
        = (emptyPageRule, some (OpErr.requestFailed e))
      ∧ (API.mk (fun _ _ _ => Except.error e)).ChangePageRule z rid rule
        = (emptyPageRule, some (OpErr.requestFailed e))
      ∧ (API.mk (fun _ _ _ => Except.error e)).UpdatePageRule z rid rule
        = (emptyPageRule, some (OpErr.requestFailed e))
      ∧ (API.mk (fun _ _ _ => Except.error e)).DeletePageRule z rid
        = some (OpErr.requestFailed e))
    ∧ (unmarshalDetail s = none →
      (constAPI s).CreatePageRule z rule = (emptyPageRule, some OpErr.decodeFailed)
      ∧ (constAPI s).PageRule z rid = (emptyPageRule, some OpErr.decodeFailed)
      ∧ (constAPI s).ChangePageRule z rid rule = (emptyPageRule, some OpErr.decodeFailed)
      ∧ (constAPI s).UpdatePageRule z rid rule = (emptyPageRule, some OpErr.decodeFailed)
      ∧ (constAPI s).DeletePageRule z rid = some OpErr.decodeFailed)
    ∧ (unmarshalList s = none →
      (constAPI s).ListPageRules z = ([], some OpErr.decodeFailed))
    ∧ (OpErr.requestFailed e).ctx = errMakeRequestError
    ∧ (OpErr.decodeFailed : OpErr ε).ctx = errUnmarshalError
    ∧ errMakeRequestError ≠ errUnmarshalError := by
  refine ⟨⟨rfl, rfl, rfl, rfl, rfl, rfl⟩, ?_, ?_, rfl, rfl, by decide⟩
  · intro h
    refine ⟨?_, ?_, ?_, ?_, ?_⟩ <;>
      simp [API.CreatePageRule, API.PageRule, API.ChangePageRule,
        API.UpdatePageRule, API.DeletePageRule, constAPI, h]
  · intro h
    simp [API.ListPageRules, constAPI, h]

/-- Witness for C3: a concrete transport error and concrete undecodable
bytes `"x"`. -/
theorem c3_error_kinds_witness :
    unmarshalDetail "x" = none
    ∧ (constAPI "x").CreatePageRule "z" emptyPageRule
        = (emptyPageRule, some OpErr.decodeFailed)
    ∧ (API.mk (fun _ _ _ => Except.error ())).CreatePageRule "z" emptyPageRule
        = (emptyPageRule, some (OpErr.requestFailed ()))
    ∧ unmarshalList "x" = none
    ∧ (constAPI "x").ListPageRules "z" = ([], some OpErr.decodeFailed) := by
  have hd : unmarshalDetail "x" = none := by decide
  have hl : unmarshalList "x" = none := by decide
  have h := c3_error_kinds () "x" "z" "r" emptyPageRule
  exact ⟨hd, (h.2.1 hd).1, h.1.1, hl, h.2.2.1 hl⟩

/-- **C10.** Whenever an operation returns an error, the accompanying result
value is the zero one (`PageRule{}`, or the empty slice for List): a caller
never sees partially decoded data alongside an error. -/
theorem c10_zero_result_on_error {ε : Type} (api : API ε) (z rid : String)
    (rule : PageRule) :
    (∀ err, (api.CreatePageRule z rule).2 = some err →
      (api.CreatePageRule z rule).1 = emptyPageRule)
    ∧ (∀ err, (api.ListPageRules z).2 = some err → (api.ListPageRules z).1 = [])
    ∧ (∀ err, (api.PageRule z rid).2 = some err →
      (api.PageRule z rid).1 = emptyPageRule)
    ∧ (∀ err, (api.ChangePageRule z rid rule).2 = some err →
      (api.ChangePageRule z rid rule).1 = emptyPageRule)
    ∧ (∀ err, (api.UpdatePageRule z rid rule).2 = some err →
      (api.UpdatePageRule z rid rule).1 = emptyPageRule) := by
  refine ⟨?_, ?_, ?_, ?_, ?_⟩ <;> intro err h
  · unfold API.CreatePageRule at h ⊢
    rcases hm : api.makeRequest "POST" ("/zones/" ++ z ++ "/pagerules") (some rule) with e | res
    · simp [hm]
    · rcases hu : unmarshalDetail res with _ | r
      · simp [hm, hu]
      · simp [hm, hu] at h
  · unfold API.ListPageRules at h ⊢
    rcases hm : api.makeRequest "GET" ("/zones/" ++ z ++ "/pagerules") none with e | res
    · simp [hm]
    · rcases hu : unmarshalList res with _ | r
      · simp [hm, hu]
      · simp [hm, hu] at h
  · unfold API.PageRule at h ⊢
    rcases hm : api.makeRequest "GET" ("/zones/" ++ z ++ "/pagerules/" ++ rid) none with e | res
    · simp [hm]
    · rcases hu : unmarshalDetail res with _ | r
      · simp [hm, hu]
      · simp [hm, hu] at h
  · unfold API.ChangePageRule at h ⊢
    rcases hm : api.makeRequest "PATCH" ("/zones/" ++ z ++ "/pagerules/" ++ rid) (some rule) with e | res
    · simp [hm]
    · rcases hu : unmarshalDetail res with _ | r
      · simp [hm, hu]
      · simp [hm, hu] at h
  · unfold API.UpdatePageRule at h ⊢
    rcases hm : api.makeRequest "PUT" ("/zones/" ++ z ++ "/pagerules/" ++ rid) (some rule) with e | res
    · simp [hm]
    · rcases hu : unmarshalDetail res with _ | r
      · simp [hm, hu]
      · simp [hm, hu] at h

/-- Witness for C10, at the probe transport (which errors every call). -/
theorem c10_zero_result_on_error_witness :
    (probeAPI.CreatePageRule "z" emptyPageRule).2
      = some (OpErr.requestFailed ⟨"POST", "/zones/z/pagerules", some emptyPageRule⟩)
    ∧ (probeAPI.CreatePageRule "z" emptyPageRule).1 = emptyPageRule
    ∧ (probeAPI.ListPageRules "z").1 = [] := by
  have h := c10_zero_result_on_error probeAPI "z" "r" emptyPageRule
  exact ⟨rfl, h.1 _ rfl, h.2.1 _ rfl⟩

/-- **C4.** Evaluation of the marshalled create/update/change request body at
a `PageRule` with empty identifier and zero timestamps: the emitted JSON
contains `targets`, `actions`, `priority` and `status` and omits `id`, but it
does **not** omit the timestamp fields — `modified_on` and `created_on` are
emitted (with the zero `time.Time` rendering), because Go's `omitempty`
never treats a struct value such as `time.Time` as empty even though the
struct tags `json:"modified_on,omitempty"` / `json:"created_on,omitempty"`
ask for omission. -/
theorem c4_body_emits_zero_timestamps :
    jsonKeys (encPageRule
      { id := "", targets := [⟨"url", ⟨"matches", "*example.com/images/*"⟩⟩],
        actions := [⟨"cache_level", Json.str "bypass"⟩], priority := 1,
        status := "active", modifiedOn := goTimeZero, createdOn := goTimeZero })
      = ["targets", "actions", "priority", "status", "modified_on", "created_on"]
    ∧ renderJson (encPageRule
      { id := "", targets := [], actions := [], priority := 1,
        status := "active", modifiedOn := goTimeZero, createdOn := goTimeZero })
      = "\x7b\"targets\":[],\"actions\":[],\"priority\":1,\"status\":\"active\",\"modified_on\":\"0001-01-01T00:00:00Z\",\"created_on\":\"0001-01-01T00:00:00Z\"\x7d" := by
  constructor <;> decide

/-! ## Arithmetic facts about the decimal rendering and the number parser -/

theorem charNe {c d : Char} (h : c.toNat ≠ d.toNat) : c ≠ d :=
  fun e => h (by rw [e])

theorem isDig_bounds {c : Char} (h : isDig c = true) :
    48 ≤ c.toNat ∧ c.toNat ≤ 57 := by
  simpa [isDig] using h

theorem isDig19_bounds {c : Char} (h : isDig19 c = true) :
    49 ≤ c.toNat ∧ c.toNat ≤ 57 := by
  simpa [isDig19] using h

theorem isWs_false {c : Char} (h : c.toNat ≠ 32 ∧ c.toNat ≠ 9 ∧ c.toNat ≠ 10 ∧ c.toNat ≠ 13) :
    isWs c = false := by
  have h1 : c ≠ ' ' := charNe h.1
  have h2 : c ≠ '\t' := charNe h.2.1
  have h3 : c ≠ '\n' := charNe h.2.2.1
  have h4 : c ≠ '\r' := charNe h.2.2.2
  simp [isWs, h1, h2, h3, h4]

theorem skipWs_cons {c : Char} {r : List Char} (h : isWs c = false) :
    skipWs (c :: r) = c :: r := by
  simp [skipWs, h]

theorem digitChar_toNat {n : Nat} (h : n < 10) : (digitChar n).toNat = 48 + n := by
  interval_cases n <;> rfl

theorem isDig_digitChar {n : Nat} (h : n < 10) : isDig (digitChar n) = true := by
  have := digitChar_toNat h
  simp [isDig, this]
  omega

theorem natDigitsF_stable (n : Nat) :
    ∀ f g, n < f → n < g → natDigitsF f n = natDigitsF g n := by
  induction n using Nat.strong_induction_on with
  | _ n ih =>
    intro f g hf hg
    rcases f with _ | f
    · omega
    rcases g with _ | g
    · omega
    show natDigitsF (f + 1) n = natDigitsF (g + 1) n
    unfold natDigitsF
    by_cases h10 : n < 10
    · simp [h10]
    · have hd : n / 10 < n := Nat.div_lt_self (by omega) (by omega)
      simp [h10, ih _ hd f g (by omega) (by omega)]

theorem natDigits_eq (n : Nat) :
    natDigits n =
      if n < 10 then [digitChar n]
      else natDigits (n / 10) ++ [digitChar (n % 10)] := by
  show natDigitsF (n + 1) n = _
  unfold natDigitsF
  by_cases h10 : n < 10
  · simp [h10]
  · have hd : n / 10 < n := Nat.div_lt_self (by omega) (by omega)
    have : natDigitsF n (n / 10) = natDigitsF (n / 10 + 1) (n / 10) :=
      natDigitsF_stable _ _ _ (by omega) (by omega)
    -- fuel `n` and fuel `n / 10 + 1` both exceed `n / 10`
    simp [h10]
    exact this

theorem natDigits_all_isDig (n : Nat) : (natDigits n).all isDig = true := by
  induction n using Nat.strong_induction_on with
  | _ n ih =>
    rw [natDigits_eq]
    by_cases h10 : n < 10
    · simp [h10, isDig_digitChar h10]
    · have hd : n / 10 < n := Nat.div_lt_self (by omega) (by omega)
      simp [h10, List.all_append, ih _ hd,
        isDig_digitChar (Nat.mod_lt n (by omega))]

theorem natDigits_head (n : Nat) (h : 1 ≤ n) :
    ∃ c t, natDigits n = c :: t ∧ isDig19 c = true ∧ t.all isDig = true := by
  induction n using Nat.strong_induction_on with
  | _ n ih =>
    rw [natDigits_eq]
    by_cases h10 : n < 10
    · refine ⟨digitChar n, [], by simp [h10], ?_, rfl⟩
      have := digitChar_toNat h10
      simp [isDig19, this]
      omega
    · have hd : n / 10 < n := Nat.div_lt_self (by omega) (by omega)
      obtain ⟨c, t, he, h19, hall⟩ := ih _ hd (by omega)
      refine ⟨c, t ++ [digitChar (n % 10)], by simp [h10, he], h19, ?_⟩
      simp [List.all_append, hall, isDig_digitChar (Nat.mod_lt n (by omega))]

theorem digitsVal_append (l m : List Char) :
    ∀ acc, digitsVal acc (l ++ m) = digitsVal (digitsVal acc l) m := by
  induction l with
  | nil => intro acc; rfl
  | cons c t ih => intro acc; exact ih _

theorem digitsVal_one (acc : Nat) (c : Char) :
    digitsVal acc [c] = acc * 10 + (c.toNat - 48) := rfl

theorem digitsVal_natDigits (n : Nat) :
    ∀ acc, digitsVal acc (natDigits n) = acc * 10 ^ (natDigits n).length + n := by
  induction n using Nat.strong_induction_on with
  | _ n ih =>
    intro acc
    by_cases h10 : n < 10
    · rw [natDigits_eq, if_pos h10, digitsVal_one, digitChar_toNat h10]
      simp
    · have hd : n / 10 < n := Nat.div_lt_self (by omega) (by omega)
      rw [natDigits_eq, if_neg h10, digitsVal_append, ih _ hd acc, digitsVal_one,
        digitChar_toNat (Nat.mod_lt n (by omega)), List.length_append,
        List.length_cons, List.length_nil, Nat.pow_succ, ← Nat.mul_assoc]
      have hdm : 10 * (n / 10) + n % 10 = n := Nat.div_add_mod n 10
      generalize acc * 10 ^ (natDigits (n / 10)).length = A
      omega

theorem digitsVal_natDigits_zero (n : Nat) : digitsVal 0 (natDigits n) = n := by
  simpa using digitsVal_natDigits n 0

theorem natDigits_ne_nil (n : Nat) : natDigits n ≠ [] := by
  rw [natDigits_eq]
  split <;> simp

/-- The characters after a number token that the claims exercise: nothing, or
a character that cannot extend the token. -/
def numBoundary (r : List Char) : Prop :=
  ∀ c t, r = c :: t → isDig c = false ∧ c ≠ '.' ∧ c ≠ 'e' ∧ c ≠ 'E'

theorem takeWhile_all_append {p : Char → Bool} :
    ∀ l r, l.all p = true → (∀ c t, r = c :: t → p c = false) →
      (l ++ r).takeWhile p = l ∧ (l ++ r).dropWhile p = r := by
  intro l
  induction l with
  | nil =>
    intro r _ hr
    rcases r with _ | ⟨c, t⟩
    · exact ⟨rfl, rfl⟩
    · simp [List.takeWhile_cons, List.dropWhile_cons, hr c t rfl]
  | cons a l ih =>
    intro r hall hr
    simp only [List.all_cons, Bool.and_eq_true] at hall
    have := ih r hall.2 hr
    simp [List.takeWhile_cons, List.dropWhile_cons, hall.1, this.1, this.2]

theorem parseIntPart_natDigits (n : Nat) (r : List Char)
    (hr : ∀ c t, r = c :: t → isDig c = false) :
    parseIntPart (natDigits n ++ r) = some (natDigits n, r) := by
  rcases Nat.eq_zero_or_pos n with h0 | hpos
  · subst h0
    have h00 : natDigits 0 = ['0'] := rfl
    rw [h00]
    simp [parseIntPart]
  · obtain ⟨c, t, he, h19, hall⟩ := natDigits_head n hpos
    have hb := isDig19_bounds h19
    have hc0 : c ≠ '0' := charNe (by
      have : ('0').toNat = 48 := rfl
      omega)
    have htw := takeWhile_all_append t r hall hr
    rw [he]
    simp [parseIntPart, hc0, h19, htw.1, htw.2]

theorem parseFracPart_none (r : List Char)
    (hr : ∀ c t, r = c :: t → c ≠ '.') :
    parseFracPart r = some (none, r) := by
  rcases r with _ | ⟨c, t⟩
  · rfl
  · simp [parseFracPart, hr c t rfl]

theorem parseExpPart_none (r : List Char)
    (hr : ∀ c t, r = c :: t → c ≠ 'e' ∧ c ≠ 'E') :
    parseExpPart r = some (none, r) := by
  rcases r with _ | ⟨c, t⟩
  · rfl
  · simp [parseExpPart, (hr c t rfl).1, (hr c t rfl).2]

theorem numBoundary_facts {r : List Char} (hb : numBoundary r) :
    (∀ c t, r = c :: t → isDig c = false) ∧
    (∀ c t, r = c :: t → c ≠ '.') ∧
    (∀ c t, r = c :: t → c ≠ 'e' ∧ c ≠ 'E') :=
  ⟨fun c t h => (hb c t h).1, fun c t h => (hb c t h).2.1,
   fun c t h => ⟨(hb c t h).2.2.1, (hb c t h).2.2.2⟩⟩

theorem parseNumTail_natDigits (ng : Bool) (n : Nat) (r : List Char)
    (hb : numBoundary r) :
    parseNumTail ng (natDigits n ++ r) = some (⟨ng, natDigits n, none, none⟩, r) := by
  obtain ⟨h1, h2, h3⟩ := numBoundary_facts hb
  unfold parseNumTail
  rw [parseIntPart_natDigits n r h1]
  simp [parseFracPart_none r h2, parseExpPart_none r h3]

theorem natDigits_head_isDig (n : Nat) :
    ∃ c t, natDigits n = c :: t ∧ isDig c = true := by
  rcases hnd : natDigits n with _ | ⟨c, t⟩
  · exact absurd hnd (natDigits_ne_nil n)
  · refine ⟨c, t, rfl, ?_⟩
    have := natDigits_all_isDig n
    rw [hnd] at this
    simp only [List.all_cons, Bool.and_eq_true] at this
    exact this.1

theorem parseNumber_natDigits (n : Nat) (r : List Char) (hb : numBoundary r) :
    parseNumber (natDigits n ++ r) = some (⟨false, natDigits n, none, none⟩, r) := by
  obtain ⟨c, t, hnd, hcd⟩ := natDigits_head_isDig n
  have hcb := isDig_bounds hcd
  have hcneg : c ≠ '-' := charNe (by
    have h45 : ('-').toNat = 45 := rfl
    omega)
  have htail := parseNumTail_natDigits false n r hb
  rw [hnd] at htail ⊢
  rw [List.cons_append]
  simp only [parseNumber]
  rw [if_neg hcneg, ← List.cons_append]
  exact htail

theorem parseNumber_neg_natDigits (n : Nat) (r : List Char) (hb : numBoundary r) :
    parseNumber ('-' :: (natDigits n ++ r))
      = some (⟨true, natDigits n, none, none⟩, r) := by
  simp only [parseNumber, if_true]
  exact parseNumTail_natDigits true n r hb

theorem intOfNumLit_nonneg (m : Nat) (h : (m : Int) ≤ i64Max) :
    intOfNumLit ⟨false, natDigits m, none, none⟩ = some (m : Int) := by
  have hmin : i64Min ≤ (m : Int) := by unfold i64Min; omega
  unfold intOfNumLit
  simp [digitsVal_natDigits_zero, hmin, h]

theorem intOfNumLit_negv (m : Nat) (h : i64Min ≤ -(m : Int)) :
    intOfNumLit ⟨true, natDigits m, none, none⟩ = some (-(m : Int)) := by
  have hmax : -(m : Int) ≤ i64Max := by unfold i64Max; omega
  unfold intOfNumLit
  simp [digitsVal_natDigits_zero, h, hmax]

/-! ## Plain characters and quoted inputs -/

/-- A character that is rendered literally inside both a JSON string and a Go
double-quoted literal: not a quote, not a backslash, not a control
character. -/
def plainChar (c : Char) : Bool :=
  !(c = '"') && !(c = '\\') && decide (32 ≤ c.toNat)

theorem plainChar_facts {c : Char} (h : plainChar c = true) :
    c ≠ '"' ∧ c ≠ '\\' ∧ 32 ≤ c.toNat := by
  simp only [plainChar, Bool.and_eq_true, Bool.not_eq_true', decide_eq_true_eq,
    decide_eq_false_iff_not] at h
  exact ⟨h.1.1, h.1.2, h.2⟩

theorem plainChar_of_isDig {c : Char} (h : isDig c = true) : plainChar c = true := by
  have hb := isDig_bounds h
  have h1 : c ≠ '"' := charNe (by have e : ('"').toNat = 34 := rfl; omega)
  have h2 : c ≠ '\\' := charNe (by have e : ('\\').toNat = 92 := rfl; omega)
  simp [plainChar, h1, h2]
  omega

theorem all_plain_of_all_isDig {l : List Char} (h : l.all isDig = true) :
    l.all plainChar = true := by
  simp only [List.all_eq_true] at h ⊢
  exact fun c hc => plainChar_of_isDig (h c hc)

theorem parseStrBody_plain :
    ∀ (l : List Char) (acc r : List Char), l.all plainChar = true →
      parseStrBody acc (l ++ '"' :: r) = some (String.mk (acc.reverse ++ l), r) := by
  intro l
  induction l with
  | nil =>
    intro acc r _
    rw [List.nil_append, parseStrBody.eq_def]
    simp
  | cons a t ih =>
    intro acc r hall
    simp only [List.all_cons, Bool.and_eq_true] at hall
    obtain ⟨hq, hbs, hge⟩ := plainChar_facts hall.1
    rw [List.cons_append, parseStrBody.eq_def]
    simp only []
    rw [if_neg hq, if_neg hbs, if_neg (by omega : ¬ a.toNat < 32)]
    rw [ih (a :: acc) r hall.2]
    simp

theorem goUnquoteBody_plain :
    ∀ (l : List Char) (f : Nat) (acc : List Char), l.all plainChar = true →
      l.length < f →
      goUnquoteBody f acc (l ++ ['"']) = some (String.mk (acc.reverse ++ l)) := by
  intro l
  induction l with
  | nil =>
    intro f acc _ hf
    rcases f with _ | f
    · omega
    · rw [List.nil_append, goUnquoteBody.eq_def]
      simp
  | cons a t ih =>
    intro f acc hall hf
    rcases f with _ | f
    · omega
    · simp only [List.all_cons, Bool.and_eq_true] at hall
      obtain ⟨hq, hbs, hge⟩ := plainChar_facts hall.1
      have hnl : a ≠ '\n' := charNe (by have e : ('\n').toNat = 10 := rfl; omega)
      rw [List.cons_append, goUnquoteBody.eq_def]
      simp only []
      rw [if_neg hq, if_neg hbs, if_neg hnl]
      rw [ih f (a :: acc) hall.2 (by simp at hf ⊢; omega)]
      simp

theorem quoted_data (s : String) : (quoted s).data = '"' :: s.data ++ ['"'] := rfl

theorem stringOk_quoted_plain (s : String) (h : s.data.all plainChar = true) :
    jsonUnmarshalStringOk (quoted s) = true := by
  have hpsb := parseStrBody_plain s.data [] [] h
  have hstep : jsonUnmarshalStringOk (quoted s) =
      (match parseStrBody [] (s.data ++ ['"']) with
       | some (_, rest) => (skipWs rest).isEmpty
       | none => false) := rfl
  rw [hstep, hpsb]
  rfl

theorem goUnquote_quoted_plain (s : String) (h : s.data.all plainChar = true) :
    goUnquote (quoted s) = some s := by
  have hstep : goUnquote (quoted s)
      = goUnquoteBody ((s.data ++ ['"']).length + 1) [] (s.data ++ ['"']) := rfl
  rw [hstep, goUnquoteBody_plain s.data ((s.data ++ ['"']).length + 1) [] h
    (by simp; omega)]
  rfl

theorem maybeInt_quoted_plain (s : String) (h : s.data.all plainChar = true)
    (prior : Int) :
    maybeIntUnmarshal (quoted s) prior =
      (match jsonUnmarshalInt s with
       | some v => (v, none)
       | none => (0, some MIErr.parseErr)) := by
  unfold maybeIntUnmarshal
  rw [if_pos (stringOk_quoted_plain s h), goUnquote_quoted_plain s h]

theorem jsonUnmarshalStringOk_cons_false {c : Char} {t : List Char}
    (hws : isWs c = false) (hq : c ≠ '"') (hn : c ≠ 'n') :
    jsonUnmarshalStringOk (String.mk (c :: t)) = false := by
  have hdata : (String.mk (c :: t)).data = c :: t := rfl
  have h4 : (c :: t).take 4 = c :: t.take 3 := rfl
  simp only [jsonUnmarshalStringOk, hdata, skipWs_cons hws]
  rw [if_neg hq, h4]
  simp [hn]

theorem jsonUnmarshalInt_digits (m : Nat) (h : (m : Int) ≤ i64Max) :
    jsonUnmarshalInt (String.mk (natDigits m)) = some (m : Int) := by
  obtain ⟨c, t, hnd, hcd⟩ := natDigits_head_isDig m
  have hcb := isDig_bounds hcd
  have hws : isWs c = false := isWs_false (by omega)
  have hcn : c ≠ 'n' := charNe (by have e : ('n').toNat = 110 := rfl; omega)
  have hdata : (String.mk (natDigits m)).data = natDigits m := rfl
  have hb0 : numBoundary [] := fun c t hh => nomatch hh
  have hp := parseNumber_natDigits m [] hb0
  rw [List.append_nil] at hp
  have hne : ¬((natDigits m).take 4 = ['n', 'u', 'l', 'l']) := by
    rw [hnd]
    have h4 : (c :: t).take 4 = c :: t.take 3 := rfl
    rw [h4]
    simp [hcn]
  have hskip : skipWs (natDigits m) = natDigits m := by
    rw [hnd]; exact skipWs_cons hws
  simp only [jsonUnmarshalInt, hdata, hskip]
  rw [if_neg hne, hp]
  simp [skipWs]
  exact intOfNumLit_nonneg m h

theorem jsonUnmarshalInt_minusDigits (m : Nat) (h : i64Min ≤ -(m : Int)) :
    jsonUnmarshalInt (String.mk ('-' :: natDigits m)) = some (-(m : Int)) := by
  have hws : isWs '-' = false := rfl
  have hdata : (String.mk ('-' :: natDigits m)).data = '-' :: natDigits m := rfl
  have hb0 : numBoundary [] := fun c t hh => nomatch hh
  have hp := parseNumber_neg_natDigits m [] hb0
  rw [List.append_nil] at hp
  have hne : ¬(('-' :: natDigits m).take 4 = ['n', 'u', 'l', 'l']) := by
    have h4 : ('-' :: natDigits m).take 4 = '-' :: (natDigits m).take 3 := rfl
    rw [h4]
    simp
  simp only [jsonUnmarshalInt, hdata, skipWs_cons hws]
  rw [if_neg hne, hp]
  simp [skipWs]
  exact intOfNumLit_negv m h

/-! ## Claims about the flexible integer decoder -/

/-- Shared core: both wire forms of an `int64`-representable integer decode
to it. -/
theorem maybeInt_wire_forms (n p q : Int)
    (h1 : i64Min ≤ n) (h2 : n ≤ i64Max) :
    maybeIntUnmarshal (intRepr n) p = (n, none)
    ∧ maybeIntUnmarshal (quoted (intRepr n)) q = (n, none) := by
  by_cases hn : n < 0
  · have hrep : intRepr n = String.mk ('-' :: natDigits n.natAbs) := by
      unfold intRepr
      rw [if_pos hn]
    have hna : -((n.natAbs : Nat) : Int) = n := by omega
    have hji : jsonUnmarshalInt (String.mk ('-' :: natDigits n.natAbs)) = some n := by
      rw [jsonUnmarshalInt_minusDigits n.natAbs (by omega), hna]
    have hplain : ('-' :: natDigits n.natAbs).all plainChar = true := by
      simp only [List.all_cons, Bool.and_eq_true]
      exact ⟨by decide, all_plain_of_all_isDig (natDigits_all_isDig n.natAbs)⟩
    have hso : jsonUnmarshalStringOk (String.mk ('-' :: natDigits n.natAbs)) = false :=
      jsonUnmarshalStringOk_cons_false (by decide) (by decide) (by decide)
    constructor
    · rw [hrep]
      unfold maybeIntUnmarshal
      rw [if_neg (by rw [hso]; exact fun hh => nomatch hh), hji]
    · rw [hrep]
      rw [maybeInt_quoted_plain (String.mk ('-' :: natDigits n.natAbs)) hplain q]
      rw [hji]
  · have hrep : intRepr n = String.mk (natDigits n.natAbs) := by
      unfold intRepr
      rw [if_neg hn]
    have hna : ((n.natAbs : Nat) : Int) = n := by omega
    have hji : jsonUnmarshalInt (String.mk (natDigits n.natAbs)) = some n := by
      rw [jsonUnmarshalInt_digits n.natAbs (by omega), hna]
    have hplain : (natDigits n.natAbs).all plainChar = true :=
      all_plain_of_all_isDig (natDigits_all_isDig n.natAbs)
    obtain ⟨c, t, hnd, hcd⟩ := natDigits_head_isDig n.natAbs
    have hcb := isDig_bounds hcd
    have hso : jsonUnmarshalStringOk (String.mk (natDigits n.natAbs)) = false := by
      rw [hnd]
      exact jsonUnmarshalStringOk_cons_false (isWs_false (by omega))
        (charNe (by have e : ('"').toNat = 34 := rfl; omega))
        (charNe (by have e : ('n').toNat = 110 := rfl; omega))
    constructor
    · rw [hrep]
      unfold maybeIntUnmarshal
      rw [if_neg (by rw [hso]; exact fun hh => nomatch hh), hji]
    · rw [hrep]
      rw [maybeInt_quoted_plain (String.mk (natDigits n.natAbs)) hplain q]
      rw [hji]

/-- **C1.** For every integer `n` representable in Go's `int` (64-bit),
decoding the bare JSON number rendering of `n` and decoding the quoted JSON
string rendering of `n` with `MaybeInt.UnmarshalJSON` both succeed and store
the same value `n`, whatever value the target held before. -/
theorem c1_flexible_int_decode (n p q : Int)
    (h1 : i64Min ≤ n) (h2 : n ≤ i64Max) :
    maybeIntUnmarshal (intRepr n) p = (n, none)
    ∧ maybeIntUnmarshal (quoted (intRepr n)) q = (n, none) :=
  maybeInt_wire_forms n p q h1 h2

/-- Witness for C1 at `n = -42` (and, concretely, the two wire forms are the
strings `-42` and `"-42"`). -/
theorem c1_flexible_int_decode_witness :
    i64Min ≤ (-42 : Int) ∧ (-42 : Int) ≤ i64Max
    ∧ intRepr (-42) = "-42" ∧ quoted (intRepr (-42)) = "\"-42\""
    ∧ maybeIntUnmarshal (intRepr (-42)) 7 = (-42, none)
    ∧ maybeIntUnmarshal (quoted (intRepr (-42))) 7 = (-42, none) := by
  have h := c1_flexible_int_decode (-42) 7 7 (by decide) (by decide)
  exact ⟨by decide, by decide, by decide, by decide, h.1, h.2⟩

/-- **C5.** A quoted JSON string whose contents are not a numeric text
(e.g. `"abc"`) makes `MaybeInt.UnmarshalJSON` fail (with the value stored as
`0`, not silently defaulting with a nil error), and so does every malformed
raw input — any input that neither unmarshals as a JSON string nor
unmarshals as an integer. -/
theorem c5_non_numeric_fails (s raw : String) (p q : Int) :
    (s.data.all plainChar = true → jsonUnmarshalInt s = none →
      maybeIntUnmarshal (quoted s) p = (0, some MIErr.parseErr))
    ∧ (jsonUnmarshalStringOk raw = false → jsonUnmarshalInt raw = none →
      maybeIntUnmarshal raw q = (0, some MIErr.parseErr)) := by
  constructor
  · intro hp hnone
    rw [maybeInt_quoted_plain s hp p, hnone]
  · intro hso hnone
    unfold maybeIntUnmarshal
    rw [if_neg (by rw [hso]; exact fun hh => nomatch hh), hnone]

/-- Witness for C5: the quoted non-numeric string `"abc"` and the malformed
raw input `]`. -/
theorem c5_non_numeric_fails_witness :
    "abc".data.all plainChar = true ∧ jsonUnmarshalInt "abc" = none
    ∧ quoted "abc" = "\"abc\""
    ∧ maybeIntUnmarshal (quoted "abc") 7 = (0, some MIErr.parseErr)
    ∧ jsonUnmarshalStringOk "]" = false ∧ jsonUnmarshalInt "]" = none
    ∧ maybeIntUnmarshal "]" 7 = (0, some MIErr.parseErr) := by
  have h := c5_non_numeric_fails "abc" "]" 7 7
  exact ⟨by decide, by decide, by decide, h.1 (by decide) (by decide),
    by decide, by decide, h.2 (by decide) (by decide)⟩

/-- **C6 (counterexample).** The claim says every failing
`MaybeInt.UnmarshalJSON` call leaves the target at its zero state.  On the
input `␣"42"` (a quoted number preceded by a space — valid JSON for
`json.Unmarshal`, but `strconv.Unquote` rejects the leading space) the call
fails at the unquoting step, which returns *before* the assignment
`*f = MaybeInt(v)`, so a target that held `7` still holds `7`, not `0`. -/
theorem c6_counterexample_unquote_keeps_prior :
    (maybeIntUnmarshal " \"42\"" 7).2 = some MIErr.unquoteErr
    ∧ (maybeIntUnmarshal " \"42\"" 7).1 = 7
    ∧ (7 : Int) ≠ 0 := by
  refine ⟨by decide, by decide, by decide⟩

/-- **C6 (amended).** On a failure at the integer-parse step the target is
set to `0` (the zero `v` is stored before the error returns); on a failure
at the unquoting step the function returns early and the target keeps
whatever value it held before the call. -/
theorem c6_error_leaves_state (raw : String) (prior : Int) :
    ((maybeIntUnmarshal raw prior).2 = some MIErr.unquoteErr →
      (maybeIntUnmarshal raw prior).1 = prior)
    ∧ ((maybeIntUnmarshal raw prior).2 = some MIErr.parseErr →
      (maybeIntUnmarshal raw prior).1 = 0) := by
  unfold maybeIntUnmarshal
  by_cases hso : jsonUnmarshalStringOk raw = true
  · rw [if_pos hso]
    rcases hgu : goUnquote raw with _ | d
    · simp [hgu]
    · rcases hji : jsonUnmarshalInt d with _ | v <;> simp [hgu, hji]
  · rw [if_neg (by rw [Bool.not_eq_true] at hso; rw [hso]; exact fun hh => nomatch hh)]
    rcases hji : jsonUnmarshalInt raw with _ | v <;> simp [hji]

/-- Witness for C6 (amended): an unquote-step failure keeps the prior `7`; a
parse-step failure stores `0`. -/
theorem c6_error_leaves_state_witness :
    (maybeIntUnmarshal " \"42\"" 7).2 = some MIErr.unquoteErr
    ∧ (maybeIntUnmarshal " \"42\"" 7).1 = 7
    ∧ (maybeIntUnmarshal "\"abc\"" 7).2 = some MIErr.parseErr
    ∧ (maybeIntUnmarshal "\"abc\"" 7).1 = 0 := by
  refine ⟨by decide, (c6_error_leaves_state " \"42\"" 7).1 (by decide),
    by decide, (c6_error_leaves_state "\"abc\"" 7).2 (by decide)⟩

/-- **C9.** A quoted string of digits with a leading zero followed by
further digits (e.g. `"042"`) fails: after unquoting, the text is re-parsed
under the JSON number grammar, whose integer part stops after a leading `0`,
leaving trailing digits that make the parse fail — rather than being read by
a plain base-10 parse as the value 42. -/
theorem c9_leading_zero_fails (ds : List Char) (prior : Int)
    (hne : ds ≠ []) (hall : ds.all isDig = true) :
    maybeIntUnmarshal (quoted (String.mk ('0' :: ds))) prior
      = (0, some MIErr.parseErr) := by
  have hplain : (String.mk ('0' :: ds)).data.all plainChar = true := by
    have hdata : (String.mk ('0' :: ds)).data = '0' :: ds := rfl
    rw [hdata]
    simp only [List.all_cons, Bool.and_eq_true]
    exact ⟨by decide, all_plain_of_all_isDig hall⟩
  rw [maybeInt_quoted_plain (String.mk ('0' :: ds)) hplain prior]
  rcases ds with _ | ⟨d, t⟩
  · exact absurd rfl hne
  · simp only [List.all_cons, Bool.and_eq_true] at hall
    have hdb := isDig_bounds hall.1
    have hdws : isWs d = false := isWs_false (by omega)
    have hji : jsonUnmarshalInt (String.mk ('0' :: d :: t)) = none := by
      have hdata : (String.mk ('0' :: d :: t)).data = '0' :: d :: t := rfl
      have hskip : skipWs ('0' :: d :: t) = '0' :: d :: t := skipWs_cons (by decide)
      have hne4 : ¬(('0' :: d :: t).take 4 = ['n', 'u', 'l', 'l']) := by
        have h4 : ('0' :: d :: t).take 4 = '0' :: (d :: t).take 3 := rfl
        rw [h4]
        simp
      have hpn : parseNumber ('0' :: d :: t)
          = some (⟨false, ['0'], none, none⟩, d :: t) := by
        simp only [parseNumber]
        rw [if_neg (by decide)]
        unfold parseNumTail
        have hip : parseIntPart ('0' :: d :: t) = some (['0'], d :: t) := by
          simp [parseIntPart]
        rw [hip]
        simp only []
        rw [parseFracPart_none (d :: t)
          (fun c2 t2 hh => by
            cases hh
            exact charNe (by have e : ('.').toNat = 46 := rfl; omega))]
        simp only []
        rw [parseExpPart_none (d :: t)
          (fun c2 t2 hh => by
            cases hh
            constructor
            · exact charNe (by have e : ('e').toNat = 101 := rfl; omega)
            · exact charNe (by have e : ('E').toNat = 69 := rfl; omega))]
      simp only [jsonUnmarshalInt, hdata, hskip]
      rw [if_neg hne4, hpn]
      simp only []
      rw [if_neg (by rw [skipWs_cons hdws]; exact fun hh => nomatch hh)]
  
    rw [hji]

/-- Witness for C9 at the contents `042`. -/
theorem c9_leading_zero_fails_witness :
    (['4', '2'] : List Char) ≠ [] ∧ (['4', '2'] : List Char).all isDig = true
    ∧ quoted (String.mk ['0', '4', '2']) = "\"042\""
    ∧ maybeIntUnmarshal (quoted (String.mk ['0', '4', '2'])) 7
        = (0, some MIErr.parseErr) := by
  exact ⟨by decide, by decide, by decide,
    c9_leading_zero_fails ['4', '2'] 7 (by decide) (by decide)⟩

/-! ## Round trip: rendered JSON parses back to the same value -/

theorem hexVal_hexDig {m : Nat} (h : m < 16) : hexVal (hexDig m) = some m := by
  interval_cases m <;> rfl

theorem psb_quote (acc r : List Char) :
    parseStrBody acc ('"' :: r) = some (String.mk acc.reverse, r) := by
  rw [parseStrBody.eq_def]
  simp

theorem psb_step_plain {c : Char} (hq : c ≠ '"') (hbs : c ≠ '\\')
    (hge : 32 ≤ c.toNat) (acc r : List Char) :
    parseStrBody acc (c :: r) = parseStrBody (c :: acc) r := by
  rw [parseStrBody.eq_def]
  simp only []
  rw [if_neg hq, if_neg hbs, if_neg (by omega : ¬ c.toNat < 32)]

theorem parseStrBody_escapeChar (c : Char) (acc r : List Char) :
    parseStrBody acc (escapeChar c ++ r) = parseStrBody (c :: acc) r := by
  by_cases hq : c = '"'
  · subst hq
    have he : escapeChar '"' = ['\\', '"'] := by decide
    rw [he, List.cons_append, List.cons_append, List.nil_append,
      parseStrBody.eq_def]
    simp
  · by_cases hbs : c = '\\'
    · subst hbs
      have he : escapeChar '\\' = ['\\', '\\'] := by decide
      rw [he, List.cons_append, List.cons_append, List.nil_append,
        parseStrBody.eq_def]
      simp
    · by_cases hlt : c.toNat < 32
      · have he : escapeChar c
            = ['\\', 'u', '0', '0', hexDig (c.toNat / 16), hexDig (c.toNat % 16)] := by
          unfold escapeChar
          rw [if_neg hq, if_neg hbs, if_pos hlt]
        have hu : uEsc '0' '0' (hexDig (c.toNat / 16)) (hexDig (c.toNat % 16))
            = some c := by
          have h1 : hexVal (hexDig (c.toNat / 16)) = some (c.toNat / 16) :=
            hexVal_hexDig (by omega)
          have h2 : hexVal (hexDig (c.toNat % 16)) = some (c.toNat % 16) :=
            hexVal_hexDig (by omega)
          have h0 : hexVal '0' = some 0 := rfl
          unfold uEsc
          rw [h0, h1, h2]
          simp only []
          have hv : 0 * 4096 + 0 * 256 + c.toNat / 16 * 16 + c.toNat % 16
              = c.toNat := by omega
          rw [hv, if_neg (by omega), Char.ofNat_toNat]
        rw [he]
        simp only [List.cons_append, List.nil_append]
        rw [parseStrBody.eq_def]
        simp [hu]
      · have he : escapeChar c = [c] := by
          unfold escapeChar
          rw [if_neg hq, if_neg hbs, if_neg hlt]
        rw [he, List.cons_append, List.nil_append]
        exact psb_step_plain hq hbs (by omega) acc r

theorem parseStrBody_escapeBody :
    ∀ (l acc rest : List Char),
      parseStrBody acc (escapeBody l ++ '"' :: rest)
        = some (String.mk (acc.reverse ++ l), rest) := by
  intro l
  induction l with
  | nil =>
    intro acc rest
    rw [show escapeBody [] = [] from rfl, List.nil_append, psb_quote]
    simp
  | cons c t ih =>
    intro acc rest
    rw [show escapeBody (c :: t) = escapeChar c ++ escapeBody t from rfl,
      List.append_assoc, parseStrBody_escapeChar, ih (c :: acc) rest]
    simp

theorem parseStrBody_renderStr (s : String) (rest : List Char) :
    parseStrBody [] (escapeBody s.data ++ '"' :: rest) = some (s, rest) := by
  rw [parseStrBody_escapeBody]
  rfl

/-- Well-formedness of an optional digit-sequence part. -/
def digsWF : Option (List Char) → Bool
  | some ds => !ds.isEmpty && ds.all isDig
  | none => true

/-- Well-formedness of an optional exponent part. -/
def expWF : Option (Option Bool × List Char) → Bool
  | some (_, ds) => !ds.isEmpty && ds.all isDig
  | none => true

theorem wfNum_parts {l : NumLit} (h : wfNum l = true) :
    ipWF l.ip = true ∧ digsWF l.fp = true ∧ expWF l.ep = true := by
  simp only [wfNum, Bool.and_eq_true] at h
  refine ⟨h.1.1, ?_, ?_⟩
  · rcases hfp : l.fp with _ | ds
    · rfl
    · rw [hfp] at h
      simpa [digsWF] using h.1.2
  · rcases hep : l.ep with _ | ⟨sg, ds⟩
    · rfl
    · rw [hep] at h
      simpa [expWF] using h.2

theorem ipWF_head {ip : List Char} (h : ipWF ip = true) :
    ∃ c ds, ip = c :: ds ∧ isDig c = true := by
  rcases ip with _ | ⟨c, ds⟩
  · exact absurd h (by simp [ipWF])
  · refine ⟨c, ds, rfl, ?_⟩
    simp only [ipWF, Bool.or_eq_true, Bool.and_eq_true, decide_eq_true_eq] at h
    rcases h with ⟨hc, _⟩ | ⟨h19, _⟩
    · subst hc; rfl
    · have := isDig19_bounds h19
      simp [isDig]
      omega

theorem parseIntPart_wf (ip r : List Char) (hwf : ipWF ip = true)
    (hr : ∀ c t, r = c :: t → isDig c = false) :
    parseIntPart (ip ++ r) = some (ip, r) := by
  rcases ip with _ | ⟨c, ds⟩
  · exact absurd hwf (by simp [ipWF])
  · simp only [ipWF, Bool.or_eq_true, Bool.and_eq_true, decide_eq_true_eq] at hwf
    rcases hwf with ⟨hc, hds⟩ | ⟨h19, hall⟩
    · subst hc
      have hds2 : ds = [] := by simpa using hds
      subst hds2
      simp [parseIntPart]
    · have hc0 : c ≠ '0' := charNe (by
        have := isDig19_bounds h19
        have e : ('0').toNat = 48 := rfl
        omega)
      have ht := takeWhile_all_append ds r hall hr
      simp only [List.cons_append, parseIntPart]
      rw [if_neg hc0, if_pos h19, ht.1, ht.2]

theorem parseFracPart_frender (fp : Option (List Char)) (r : List Char)
    (hwf : digsWF fp = true)
    (hr : ∀ c t, r = c :: t → isDig c = false ∧ c ≠ '.') :
    parseFracPart (fracRender fp ++ r) = some (fp, r) := by
  rcases fp with _ | ds
  · rw [show fracRender none = [] from rfl, List.nil_append]
    exact parseFracPart_none r (fun c t h => (hr c t h).2)
  · simp only [digsWF, Bool.and_eq_true, Bool.not_eq_true', List.isEmpty_eq_false] at hwf
    rcases hds : ds with _ | ⟨d, ds2⟩
    · exact absurd hds hwf.1
    · rw [← hds]
      have hall : ds.all isDig = true := hwf.2
      have ht := takeWhile_all_append ds r hall (fun c t h => (hr c t h).1)
      rw [show fracRender (some ds) = '.' :: ds from rfl, List.cons_append]
      simp only [parseFracPart, if_true]
      rw [ht.1, ht.2, hds]
      simp

theorem parseSign_digit {d : Char} (hd : isDig d = true) (x : List Char) :
    parseSign (d :: x) = (none, d :: x) := by
  have hdb := isDig_bounds hd
  have hdp : d ≠ '+' := charNe (by have e : ('+').toNat = 43 := rfl; omega)
  have hdm : d ≠ '-' := charNe (by have e : ('-').toNat = 45 := rfl; omega)
  simp [parseSign, hdp, hdm]

theorem parseExpPart_erender (ep : Option (Option Bool × List Char)) (r : List Char)
    (hwf : expWF ep = true)
    (hr : ∀ c t, r = c :: t → isDig c = false ∧ c ≠ 'e' ∧ c ≠ 'E') :
    parseExpPart (expRender ep ++ r) = some (ep, r) := by
  rcases ep with _ | ⟨sg, ds⟩
  · rw [show expRender none = [] from rfl, List.nil_append]
    exact parseExpPart_none r (fun c t h => (hr c t h).2)
  · simp only [expWF, Bool.and_eq_true, Bool.not_eq_true', List.isEmpty_eq_false] at hwf
    have hall : ds.all isDig = true := hwf.2
    have ht := takeWhile_all_append ds r hall (fun c t h => (hr c t h).1)
    rcases hds : ds with _ | ⟨d, ds2⟩
    · exact absurd hds hwf.1
    · rw [← hds]
      have hd : isDig d = true := by
        rw [hds] at hall
        simp only [List.all_cons, Bool.and_eq_true] at hall
        exact hall.1
      have hsg : parseSign (signRender sg ++ (ds ++ r)) = (sg, ds ++ r) := by
        rcases sg with _ | b
        · rw [show signRender none = [] from rfl, List.nil_append, hds,
            List.cons_append, parseSign_digit hd, ← List.cons_append, ← hds]
        · rcases b with _ | _
          · rw [show signRender (some false) = ['+'] from rfl]
            simp [parseSign]
          · rw [show signRender (some true) = ['-'] from rfl]
            simp [parseSign]
      have hshape : expRender (some (sg, ds)) ++ r
          = 'e' :: (signRender sg ++ (ds ++ r)) := by
        rw [show expRender (some (sg, ds)) = 'e' :: signRender sg ++ ds from rfl]
        simp [List.append_assoc]
      rw [hshape]
      simp only [parseExpPart]
      rw [if_pos (by simp), hsg]
      simp only []
      rw [ht.1, ht.2, hds]
      simp

theorem parseNumTail_render (ng : Bool) (ip : List Char) (fp : Option (List Char))
    (ep : Option (Option Bool × List Char)) (r : List Char)
    (hip : ipWF ip = true) (hfp : digsWF fp = true) (hep : expWF ep = true)
    (hb : numBoundary r) :
    parseNumTail ng (ip ++ (fracRender fp ++ (expRender ep ++ r)))
      = some (⟨ng, ip, fp, ep⟩, r) := by
  have hfe : ∀ c t, expRender ep ++ r = c :: t →
      isDig c = false ∧ c ≠ '.' := by
    intro c t h
    rcases ep with _ | ⟨sg, ds⟩
    · rw [show expRender none = [] from rfl, List.nil_append] at h
      refine ⟨(hb c t h).1, (hb c t h).2.1⟩
    · rw [show expRender (some (sg, ds)) = 'e' :: signRender sg ++ ds from rfl,
        List.cons_append] at h
      cases h
      refine ⟨by decide, by decide⟩
  have hff : ∀ c t, fracRender fp ++ (expRender ep ++ r) = c :: t →
      isDig c = false := by
    intro c t h
    rcases fp with _ | ds
    · rw [show fracRender none = [] from rfl, List.nil_append] at h
      exact (hfe c t h).1
    · rw [show fracRender (some ds) = '.' :: ds from rfl, List.cons_append] at h
      cases h
      decide
  have hbe : ∀ c t, r = c :: t → isDig c = false ∧ c ≠ 'e' ∧ c ≠ 'E' :=
    fun c t h => ⟨(hb c t h).1, (hb c t h).2.2.1, (hb c t h).2.2.2⟩
  unfold parseNumTail
  rw [show ip ++ (fracRender fp ++ (expRender ep ++ r))
      = ip ++ (fracRender fp ++ (expRender ep ++ r)) from rfl,
    parseIntPart_wf ip _ hip hff]
  simp only []
  rw [parseFracPart_frender fp _ hfp hfe]
  simp only []
  rw [parseExpPart_erender ep r hep hbe]

theorem parseNumber_render_wf (l : NumLit) (rest : List Char)
    (hwf : wfNum l = true) (hb : numBoundary rest) :
    parseNumber (renderNum l ++ rest) = some (l, rest) := by
  obtain ⟨hip, hfp, hep⟩ := wfNum_parts hwf
  rcases l with ⟨ng, ip, fp, ep⟩
  simp only [] at hip hfp hep
  have hshape : renderNum ⟨ng, ip, fp, ep⟩ ++ rest
      = (if ng then ['-'] else []) ++ (ip ++ (fracRender fp ++ (expRender ep ++ rest))) := by
    unfold renderNum
    simp [List.append_assoc]
  rw [hshape]
  obtain ⟨c, ds, hipc, hcd⟩ := ipWF_head hip
  rcases ng with _ | _
  · -- not negated: the input starts with the integer part
    rw [if_neg (by simp), List.nil_append, hipc, List.cons_append]
    have hcb := isDig_bounds hcd
    have hcneg : c ≠ '-' := charNe (by have e : ('-').toNat = 45 := rfl; omega)
    simp only [parseNumber]
    rw [if_neg hcneg, ← List.cons_append, ← hipc]
    exact parseNumTail_render false ip fp ep rest hip hfp hep hb
  · rw [if_pos rfl, List.singleton_append]
    simp only [parseNumber, if_true]
    exact parseNumTail_render true ip fp ep rest hip hfp hep hb

theorem numBoundary_cons {c : Char} (h1 : isDig c = false) (h2 : c ≠ '.')
    (h3 : c ≠ 'e') (h4 : c ≠ 'E') (x : List Char) : numBoundary (c :: x) := by
  intro c2 t2 hh
  cases hh
  exact ⟨h1, h2, h3, h4⟩

theorem numBoundary_nil : numBoundary [] := fun _ _ h => nomatch h

theorem numBoundary_rbracket (x : List Char) : numBoundary (']' :: x) :=
  numBoundary_cons (by decide) (by decide) (by decide) (by decide) x

theorem numBoundary_comma (x : List Char) : numBoundary (',' :: x) :=
  numBoundary_cons (by decide) (by decide) (by decide) (by decide) x

theorem numBoundary_rbrace (x : List Char) : numBoundary (Char.ofNat 125 :: x) :=
  numBoundary_cons (by decide) (by decide) (by decide) (by decide) x

theorem renderNum_head (l : NumLit) (hwf : wfNum l = true) :
    ∃ c t, renderNum l = c :: t ∧ 45 ≤ c.toNat ∧ c.toNat ≤ 57 := by
  obtain ⟨hip, _, _⟩ := wfNum_parts hwf
  obtain ⟨c, ds, hipc, hcd⟩ := ipWF_head hip
  have hcb := isDig_bounds hcd
  rcases hng : l.neg with _ | _
  · refine ⟨c, ds ++ (fracRender l.fp ++ expRender l.ep), ?_, by omega, by omega⟩
    unfold renderNum
    rw [hng, hipc]
    simp [List.append_assoc]
  · refine ⟨'-', l.ip ++ (fracRender l.fp ++ expRender l.ep), ?_, by decide, by decide⟩
    unfold renderNum
    rw [hng]
    simp [List.append_assoc]

theorem renderV_head (j : Json) (hwf : wfV j = true) :
    ∃ c t, renderV j = c :: t ∧ isWs c = false ∧ c ≠ ']' := by
  cases j with
  | null => exact ⟨'n', _, rfl, by decide, by decide⟩
  | bool b =>
    cases b
    · exact ⟨'f', _, rfl, by decide, by decide⟩
    · exact ⟨'t', _, rfl, by decide, by decide⟩
  | num l =>
    have hwf2 : wfNum l = true := by simpa [wfV] using hwf
    obtain ⟨c, t, he, h45, h57⟩ := renderNum_head l hwf2
    exact ⟨c, t, he, isWs_false (by omega),
      charNe (by have e : (']').toNat = 93 := rfl; omega)⟩
  | str s => exact ⟨'"', _, rfl, by decide, by decide⟩
  | arr a => exact ⟨'[', _, rfl, by decide, by decide⟩
  | obj o => exact ⟨Char.ofNat 123, _, rfl, by decide, by decide⟩

theorem skipWs_renderV (j : Json) (hwf : wfV j = true) (X : List Char) :
    skipWs (renderV j ++ X) = renderV j ++ X := by
  obtain ⟨c, t, he, hws, _⟩ := renderV_head j hwf
  rw [he, List.cons_append, skipWs_cons hws]

theorem renderA_cons_shape (v : Json) (a : JsonArr) :
    ∃ X, renderA (JsonArr.cons v a) = renderV v ++ X := by
  cases a with
  | nil => exact ⟨[], by rw [show renderA (JsonArr.cons v JsonArr.nil) = renderV v from rfl, List.append_nil]⟩
  | cons w a2 => exact ⟨',' :: renderA (JsonArr.cons w a2), rfl⟩

theorem renderO_cons_head (k : String) (v : Json) (o : JsonObj) :
    ∃ t, renderO (JsonObj.cons k v o) = '"' :: t := by
  cases o with
  | nil => exact ⟨escapeBody k.data ++ ['"'] ++ (':' :: renderV v), by
      rw [show renderO (JsonObj.cons k v JsonObj.nil) = renderStr k ++ ':' :: renderV v from rfl]
      rw [show renderStr k = '"' :: (escapeBody k.data ++ ['"']) from rfl]
      simp [List.append_assoc]⟩
  | cons k2 v2 o2 => exact ⟨escapeBody k.data ++ ['"']
        ++ (':' :: renderV v ++ ',' :: renderO (JsonObj.cons k2 v2 o2)), by
      rw [show renderO (JsonObj.cons k v (JsonObj.cons k2 v2 o2))
          = renderStr k ++ ':' :: renderV v ++ ',' :: renderO (JsonObj.cons k2 v2 o2) from rfl]
      rw [show renderStr k = '"' :: (escapeBody k.data ++ ['"']) from rfl]
      simp [List.append_assoc]⟩

theorem skipWs_renderA_cons (v : Json) (a : JsonArr) (hwv : wfV v = true)
    (X : List Char) :
    skipWs (renderA (JsonArr.cons v a) ++ X) = renderA (JsonArr.cons v a) ++ X := by
  obtain ⟨X0, hX0⟩ := renderA_cons_shape v a
  rw [hX0, List.append_assoc]
  exact skipWs_renderV v hwv _

theorem sizeV_pos (j : Json) : 1 ≤ sizeV j := by
  cases j <;> simp [sizeV]

theorem sizeA_pos (a : JsonArr) : 1 ≤ sizeA a := by
  cases a <;> simp [sizeA] <;> omega

theorem sizeO_pos (o : JsonObj) : 1 ≤ sizeO o := by
  cases o <;> simp [sizeO] <;> omega

mutual

theorem parseVal_render (j : Json) (f : Nat) (rest : List Char)
    (hwf : wfV j = true) (hf : sizeV j ≤ f) (hb : numBoundary rest) :
    parseVal f (renderV j ++ rest) = some (j, rest) := by
  rcases f with _ | f
  · exact absurd hf (by have := sizeV_pos j; omega)
  cases j with
  | null => rfl
  | bool b => cases b <;> rfl
  | num l =>
    have hwf2 : wfNum l = true := by simpa [wfV] using hwf
    obtain ⟨c, t, he, h45, h57⟩ := renderNum_head l hwf2
    have hstep : parseVal (f + 1) (c :: (t ++ rest)) = parseNumVal (c :: (t ++ rest)) := by
      rw [parseVal.eq_def]
      simp only []
      rw [if_neg (charNe (by have e : ('"').toNat = 34 := rfl; omega)),
        if_neg (charNe (by have e : ('[').toNat = 91 := rfl; omega)),
        if_neg (charNe (by have e : (Char.ofNat 123).toNat = 123 := rfl; omega)),
        if_neg (charNe (by have e : ('n').toNat = 110 := rfl; omega)),
        if_neg (charNe (by have e : ('t').toNat = 116 := rfl; omega)),
        if_neg (charNe (by have e : ('f').toNat = 102 := rfl; omega))]
    rw [show renderV (Json.num l) = renderNum l from rfl, he, List.cons_append,
      hstep]
    unfold parseNumVal
    rw [← List.cons_append, ← he, parseNumber_render_wf l rest hwf2 hb]
  | str s =>
    have hshape : renderV (Json.str s) ++ rest
        = '"' :: (escapeBody s.data ++ '"' :: rest) := by
      rw [show renderV (Json.str s) = '"' :: (escapeBody s.data ++ ['"']) from rfl]
      simp [List.append_assoc]
    have hstep : parseVal (f + 1) ('"' :: (escapeBody s.data ++ '"' :: rest))
        = parseStrVal (escapeBody s.data ++ '"' :: rest) := rfl
    rw [hshape, hstep]
    unfold parseStrVal
    rw [parseStrBody_renderStr]
  | arr a =>
    cases a with
    | nil => rfl
    | cons v a2 =>
      have hw : wfV v = true ∧ wfA a2 = true := by simpa [wfV, wfA] using hwf
      have hshape : renderV (Json.arr (JsonArr.cons v a2)) ++ rest
          = '[' :: (renderA (JsonArr.cons v a2) ++ ']' :: rest) := by
        rw [show renderV (Json.arr (JsonArr.cons v a2))
            = '[' :: (renderA (JsonArr.cons v a2) ++ [']']) from rfl]
        simp [List.append_assoc]
      have hstep : ∀ X, parseVal (f + 1) ('[' :: X)
          = (match skipWs X with
             | [] => none
             | c2 :: r2 =>
               if c2 = ']' then some (Json.arr JsonArr.nil, r2)
               else match parseElems f (c2 :: r2) with
                    | some (a3, rest2) => some (Json.arr a3, rest2)
                    | none => none) := fun X => rfl
      obtain ⟨X0, hX0⟩ := renderA_cons_shape v a2
      obtain ⟨c0, t0, hv0, hws0, hnb0⟩ := renderV_head v hw.1
      have hsk : skipWs (renderA (JsonArr.cons v a2) ++ ']' :: rest)
          = renderA (JsonArr.cons v a2) ++ ']' :: rest := by
        rw [hX0, List.append_assoc]
        exact skipWs_renderV v hw.1 _
      have hcons : renderA (JsonArr.cons v a2) ++ ']' :: rest
          = c0 :: (t0 ++ (X0 ++ ']' :: rest)) := by
        rw [hX0, hv0]
        simp [List.append_assoc]
      rw [hshape, hstep, hsk, hcons]
      simp only []
      rw [if_neg hnb0, ← hcons,
        parseElems_render a2 v f rest hw.1 hw.2 (by
          simp only [sizeV] at hf
          omega)]
  | obj o =>
    cases o with
    | nil => rfl
    | cons k v o2 =>
      have hw : wfV v = true ∧ wfO o2 = true := by simpa [wfV, wfO] using hwf
      have hshape : renderV (Json.obj (JsonObj.cons k v o2)) ++ rest
          = Char.ofNat 123
              :: (renderO (JsonObj.cons k v o2) ++ Char.ofNat 125 :: rest) := by
        rw [show renderV (Json.obj (JsonObj.cons k v o2))
            = Char.ofNat 123
                :: (renderO (JsonObj.cons k v o2) ++ [Char.ofNat 125]) from rfl]
        simp [List.append_assoc]
      have hstep : ∀ X, parseVal (f + 1) (Char.ofNat 123 :: X)
          = (if (skipWs X).head? = some (Char.ofNat 125) then
               some (Json.obj JsonObj.nil, (skipWs X).tail)
             else match parseMembers f (skipWs X) with
                  | some (o3, rest2) => some (Json.obj o3, rest2)
                  | none => none) := fun X => rfl
      obtain ⟨t0, ho0⟩ := renderO_cons_head k v o2
      have hsk : skipWs (renderO (JsonObj.cons k v o2) ++ Char.ofNat 125 :: rest)
          = renderO (JsonObj.cons k v o2) ++ Char.ofNat 125 :: rest := by
        rw [ho0, List.cons_append]
        exact skipWs_cons (by decide)
      have hhead : (renderO (JsonObj.cons k v o2) ++ Char.ofNat 125 :: rest).head?
          = some '"' := by
        rw [ho0]
        rfl
      rw [hshape, hstep, hsk, if_neg (by rw [hhead]; decide)]
      rw [parseMembers_render o2 k v f rest hw.1 hw.2 (by
        simp only [sizeV] at hf
        omega)]
termination_by sizeV j
decreasing_by
  all_goals try simp_wf
  all_goals subst_vars
  all_goals first
    | omega
    | (simp only [sizeV, sizeA, sizeO]; omega)

theorem parseElems_render (a : JsonArr) (v : Json) (f : Nat) (rest : List Char)
    (hwv : wfV v = true) (hwa : wfA a = true)
    (hf : sizeA (JsonArr.cons v a) ≤ f) :
    parseElems f (renderA (JsonArr.cons v a) ++ ']' :: rest)
      = some (JsonArr.cons v a, rest) := by
  rcases f with _ | f
  · exact absurd hf (by have := sizeV_pos v; have := sizeA_pos a; simp only [sizeA]; omega)
  have hstep : ∀ S, parseElems (f + 1) S
      = (match parseVal f S with
         | none => none
         | some (v2, r) =>
           match skipWs r with
           | [] => none
           | c :: r2 =>
             if c = ',' then
               match parseElems f (skipWs r2) with
               | some (a3, rest2) => some (JsonArr.cons v2 a3, rest2)
               | none => none
             else if c = ']' then some (JsonArr.cons v2 JsonArr.nil, r2)
             else none) := fun S => rfl
  cases a with
  | nil =>
    rw [show renderA (JsonArr.cons v JsonArr.nil) = renderV v from rfl, hstep,
      parseVal_render v f (']' :: rest) hwv
        (by simp only [sizeA] at hf; omega) (numBoundary_rbracket rest)]
    simp only []
    rw [skipWs_cons (by decide : isWs ']' = false)]
    simp
  | cons w a2 =>
    have hwa2 : wfV w = true ∧ wfA a2 = true := by simpa [wfA] using hwa
    have hshape : renderA (JsonArr.cons v (JsonArr.cons w a2)) ++ ']' :: rest
        = renderV v ++ (',' :: (renderA (JsonArr.cons w a2) ++ ']' :: rest)) := by
      rw [show renderA (JsonArr.cons v (JsonArr.cons w a2))
          = renderV v ++ ',' :: renderA (JsonArr.cons w a2) from rfl]
      simp [List.append_assoc]
    rw [hshape, hstep,
      parseVal_render v f (',' :: (renderA (JsonArr.cons w a2) ++ ']' :: rest)) hwv
        (by simp only [sizeA] at hf; have := sizeA_pos a2; have := sizeV_pos w; omega)
        (numBoundary_comma _)]
    simp only []
    rw [skipWs_cons (by decide : isWs ',' = false)]
    simp only [eq_self_iff_true, if_true]
    rw [skipWs_renderA_cons w a2 hwa2.1 (']' :: rest),
      parseElems_render a2 w f rest hwa2.1 hwa2.2 (by
        simp only [sizeA] at hf ⊢
        have := sizeV_pos v
        omega)]
termination_by sizeV v + sizeA a + 1
decreasing_by
  all_goals try simp_wf
  all_goals subst_vars
  all_goals first
    | omega
    | (simp only [sizeV, sizeA, sizeO]; omega)

theorem parseMembers_render (o : JsonObj) (k : String) (v : Json) (f : Nat)
    (rest : List Char) (hwv : wfV v = true) (hwo : wfO o = true)
    (hf : sizeO (JsonObj.cons k v o) ≤ f) :
    parseMembers f (renderO (JsonObj.cons k v o) ++ Char.ofNat 125 :: rest)
      = some (JsonObj.cons k v o, rest) := by
  rcases f with _ | f
  · exact absurd hf (by have := sizeV_pos v; have := sizeO_pos o; simp only [sizeO]; omega)
  have hstep : ∀ B, parseMembers (f + 1) ('"' :: B)
      = (match parseStrBody [] B with
         | none => none
         | some (k2, r1) =>
           match skipWs r1 with
           | ':' :: r2 =>
             (match parseVal f (skipWs r2) with
              | none => none
              | some (v2, r3) =>
                match skipWs r3 with
                | [] => none
                | c :: r4 =>
                  if c = ',' then
                    match parseMembers f (skipWs r4) with
                    | some (o3, rest2) => some (JsonObj.cons k2 v2 o3, rest2)
                    | none => none
                  else if c = Char.ofNat 125 then
                    some (JsonObj.cons k2 v2 JsonObj.nil, r4)
                  else none)
           | _ => none) := fun B => rfl
  cases o with
  | nil =>
    have hshape : renderO (JsonObj.cons k v JsonObj.nil) ++ Char.ofNat 125 :: rest
        = '"' :: (escapeBody k.data
            ++ '"' :: (':' :: (renderV v ++ Char.ofNat 125 :: rest))) := by
      rw [show renderO (JsonObj.cons k v JsonObj.nil)
          = renderStr k ++ ':' :: renderV v from rfl,
        show renderStr k = '"' :: (escapeBody k.data ++ ['"']) from rfl]
      simp [List.append_assoc]
    rw [hshape, hstep, parseStrBody_renderStr k _]
    simp only []
    rw [skipWs_cons (by decide : isWs ':' = false)]
    simp only []
    rw [skipWs_renderV v hwv (Char.ofNat 125 :: rest),
      parseVal_render v f (Char.ofNat 125 :: rest) hwv
        (by simp only [sizeO] at hf; omega) (numBoundary_rbrace rest)]
    simp only []
    rw [skipWs_cons (by decide : isWs (Char.ofNat 125) = false)]
    simp
  | cons k2 v2 o2 =>
    have hwo2 : wfV v2 = true ∧ wfO o2 = true := by simpa [wfO] using hwo
    have hshape : renderO (JsonObj.cons k v (JsonObj.cons k2 v2 o2))
          ++ Char.ofNat 125 :: rest
        = '"' :: (escapeBody k.data ++ '"' :: (':' :: (renderV v
            ++ ',' :: (renderO (JsonObj.cons k2 v2 o2)
              ++ Char.ofNat 125 :: rest)))) := by
      rw [show renderO (JsonObj.cons k v (JsonObj.cons k2 v2 o2))
          = renderStr k ++ ':' :: renderV v
              ++ ',' :: renderO (JsonObj.cons k2 v2 o2) from rfl,
        show renderStr k = '"' :: (escapeBody k.data ++ ['"']) from rfl]
      simp [List.append_assoc]
    rw [hshape, hstep, parseStrBody_renderStr k _]
    simp only []
    rw [skipWs_cons (by decide : isWs ':' = false)]
    simp only []
    rw [skipWs_renderV v hwv
        (',' :: (renderO (JsonObj.cons k2 v2 o2) ++ Char.ofNat 125 :: rest)),
      parseVal_render v f
        (',' :: (renderO (JsonObj.cons k2 v2 o2) ++ Char.ofNat 125 :: rest)) hwv
        (by simp only [sizeO] at hf; have := sizeV_pos v2; have := sizeO_pos o2; omega)
        (numBoundary_comma _)]
    simp only []
    rw [skipWs_cons (by decide : isWs ',' = false)]
    simp only [eq_self_iff_true, if_true]
    have hsk2 : skipWs (renderO (JsonObj.cons k2 v2 o2) ++ Char.ofNat 125 :: rest)
        = renderO (JsonObj.cons k2 v2 o2) ++ Char.ofNat 125 :: rest := by
      obtain ⟨t2, ho2⟩ := renderO_cons_head k2 v2 o2
      rw [ho2, List.cons_append]
      exact skipWs_cons (by decide)
    rw [hsk2,
      parseMembers_render o2 k2 v2 f rest hwo2.1 hwo2.2 (by
        simp only [sizeO] at hf ⊢
        have := sizeV_pos v
        omega)]
termination_by sizeV v + sizeO o + 1
decreasing_by
  all_goals try simp_wf
  all_goals subst_vars
  all_goals first
    | omega
    | (simp only [sizeV, sizeA, sizeO]; omega)

end

/-! ## Well-formedness and size of marshalled values -/

theorem ipWF_natDigits (m : Nat) : ipWF (natDigits m) = true := by
  rcases Nat.eq_zero_or_pos m with h0 | h1
  · subst h0
    decide
  · obtain ⟨c, t, he, h19, hall⟩ := natDigits_head m h1
    rw [he]
    simp [ipWF, h19, hall]

theorem wfNum_intToNumLit (n : Int) : wfNum (intToNumLit n) = true := by
  simp [wfNum, intToNumLit, ipWF_natDigits]

theorem renderNum_intToNumLit (n : Int) :
    renderNum (intToNumLit n) = (intRepr n).data := by
  by_cases hn : n < 0
  · simp [renderNum, intToNumLit, intRepr, fracRender, expRender, hn]
  · simp [renderNum, intToNumLit, intRepr, fracRender, expRender, hn]

theorem renderStr_length (s : String) :
    (renderStr s).length = 2 + (escapeBody s.data).length := by
  simp [renderStr]
  omega

mutual

theorem sizeV_le_render (j : Json) (hwf : wfV j = true) :
    sizeV j + 1 ≤ 2 * (renderV j).length := by
  cases j with
  | null => decide
  | bool b => cases b <;> decide
  | num l =>
    have hwf2 : wfNum l = true := by simpa [wfV] using hwf
    obtain ⟨c, t, he, _, _⟩ := renderNum_head l hwf2
    rw [show renderV (Json.num l) = renderNum l from rfl, he]
    simp [sizeV]
  | str s =>
    rw [show renderV (Json.str s) = renderStr s from rfl, renderStr_length]
    simp [sizeV]
    omega
  | arr a =>
    cases a with
    | nil => decide
    | cons v a2 =>
      have hw : wfV v = true ∧ wfA a2 = true := by simpa [wfV, wfA] using hwf
      have h1 := sizeA_le_render v a2 hw.1 hw.2
      rw [show renderV (Json.arr (JsonArr.cons v a2))
          = '[' :: renderA (JsonArr.cons v a2) ++ [']'] from rfl]
      simp only [sizeV, List.length_cons, List.length_append]
      omega
  | obj o =>
    cases o with
    | nil => decide
    | cons k v o2 =>
      have hw : wfV v = true ∧ wfO o2 = true := by simpa [wfV, wfO] using hwf
      have h1 := sizeO_le_render k v o2 hw.1 hw.2
      rw [show renderV (Json.obj (JsonObj.cons k v o2))
          = Char.ofNat 123 :: renderO (JsonObj.cons k v o2) ++ [Char.ofNat 125]
          from rfl]
      simp only [sizeV, List.length_cons, List.length_append]
      omega
termination_by sizeV j
decreasing_by
  all_goals try simp_wf
  all_goals subst_vars
  all_goals first
    | omega
    | (simp only [sizeV, sizeA, sizeO]; omega)

theorem sizeA_le_render (v : Json) (a : JsonArr)
    (hwv : wfV v = true) (hwa : wfA a = true) :
    sizeA (JsonArr.cons v a) ≤ 2 * (renderA (JsonArr.cons v a)).length + 1 := by
  cases a with
  | nil =>
    have h1 := sizeV_le_render v hwv
    rw [show renderA (JsonArr.cons v JsonArr.nil) = renderV v from rfl]
    simp only [sizeA]
    omega
  | cons w a2 =>
    have hw2 : wfV w = true ∧ wfA a2 = true := by simpa [wfA] using hwa
    have h1 := sizeV_le_render v hwv
    have h2 := sizeA_le_render w a2 hw2.1 hw2.2
    rw [show renderA (JsonArr.cons v (JsonArr.cons w a2))
        = renderV v ++ ',' :: renderA (JsonArr.cons w a2) from rfl]
    simp only [sizeA] at h2
    simp only [sizeA, List.length_append, List.length_cons]
    omega
termination_by sizeV v + sizeA a + 1
decreasing_by
  all_goals try simp_wf
  all_goals subst_vars
  all_goals first
    | omega
    | (simp only [sizeV, sizeA, sizeO]; omega)

theorem sizeO_le_render (k : String) (v : Json) (o : JsonObj)
    (hwv : wfV v = true) (hwo : wfO o = true) :
    sizeO (JsonObj.cons k v o) ≤ 2 * (renderO (JsonObj.cons k v o)).length + 1 := by
  cases o with
  | nil =>
    have h1 := sizeV_le_render v hwv
    rw [show renderO (JsonObj.cons k v JsonObj.nil)
        = renderStr k ++ ':' :: renderV v from rfl]
    simp only [sizeO, List.length_append, List.length_cons]
    omega
  | cons k2 w o2 =>
    have hw2 : wfV w = true ∧ wfO o2 = true := by simpa [wfO] using hwo
    have h1 := sizeV_le_render v hwv
    have h2 := sizeO_le_render k2 w o2 hw2.1 hw2.2
    rw [show renderO (JsonObj.cons k v (JsonObj.cons k2 w o2))
        = renderStr k ++ ':' :: renderV v ++ ',' :: renderO (JsonObj.cons k2 w o2)
        from rfl]
    simp only [sizeO] at h2
    simp only [sizeO, List.length_append, List.length_cons]
    omega
termination_by sizeV v + sizeO o + 1
decreasing_by
  all_goals try simp_wf
  all_goals subst_vars
  all_goals first
    | omega
    | (simp only [sizeV, sizeA, sizeO]; omega)

end

/-- Parsing the rendering of a well-formed value gives it back; the fuel
`parseJson` allots suffices. -/
theorem parseJson_render (j : Json) (hwf : wfV j = true) :
    parseJson (renderJson j) = some j := by
  have hdata : (renderJson j).data = renderV j := rfl
  have hsk : skipWs (renderV j) = renderV j := by
    have h := skipWs_renderV j hwf []
    simpa using h
  have hfuel : sizeV j ≤ 2 * (renderV j).length + 8 := by
    have := sizeV_le_render j hwf
    omega
  have hp : parseVal (2 * (renderV j).length + 8) (renderV j ++ [])
      = some (j, []) :=
    parseVal_render j _ [] hwf hfuel numBoundary_nil
  rw [List.append_nil] at hp
  unfold parseJson
  rw [hdata, hsk, hp]
  rfl

/-! ## Decoding a marshalled rule reproduces it -/

theorem decTarget_enc (t : PageRuleTarget) : decTarget (encTarget t) = some t := rfl

theorem decAction_enc (a : PageRuleAction) : decAction (encAction a) = some a := rfl

theorem decArrWith_map {α : Type} (f : Json → Option α) (g : α → Json)
    (h : ∀ x, f (g x) = some x) :
    ∀ l : List α, decArrWith f (jarrOf (l.map g)) = some l := by
  intro l
  induction l with
  | nil => rfl
  | cons x xs ih => simp [jarrOf, decArrWith, h x, ih]

theorem decPriorityF_enc (n : Int) (h1 : i64Min ≤ n) (h2 : n ≤ i64Max) :
    decPriorityF (some (Json.num (intToNumLit n))) = some n := by
  have hm := (maybeInt_wire_forms n 0 0 h1 h2).1
  have hr : renderJson (Json.num (intToNumLit n)) = intRepr n := by
    unfold renderJson
    rw [show renderV (Json.num (intToNumLit n)) = renderNum (intToNumLit n)
        from rfl, renderNum_intToNumLit]
  simp only [decPriorityF]
  rw [hr, hm]

theorem decPageRule_enc (r : PageRule) (hid : r.id = "")
    (h1 : i64Min ≤ r.priority) (h2 : r.priority ≤ i64Max) :
    decPageRule (encPageRule r) = some r := by
  obtain ⟨i, ts, as_, p, st, ⟨mo⟩, ⟨co⟩⟩ := r
  have hid2 : i = "" := hid
  subst hid2
  have hp1 : i64Min ≤ p := h1
  have hp2 : p ≤ i64Max := h2
  have hts := decArrWith_map decTarget encTarget decTarget_enc ts
  have has := decArrWith_map decAction encAction decAction_enc as_
  have hp := decPriorityF_enc p hp1 hp2
  simp [encPageRule, jobjOf, decPageRule, lookupLast, decStringF, decTimeF,
    decTargetsF, decActionsF, hts, has, hp]

theorem decDetail_envelope (res : Json) (pr : PageRule)
    (h : decPageRule res = some pr) :
    decDetail (detailEnvelope res) = some ⟨true, [], [], pr⟩ := by
  simp [detailEnvelope, jobjOf, decDetail, lookupLast, decBoolF,
    decStringListF, decArrWith, decResultF, h]

theorem wfV_encTarget (t : PageRuleTarget) : wfV (encTarget t) = true := rfl

theorem wfV_encAction (a : PageRuleAction) (h : wfV a.value = true) :
    wfV (encAction a) = true := by
  simp [encAction, wfV, wfO, h]

theorem wfA_jarrOf_map {α : Type} (g : α → Json) :
    ∀ l : List α, (∀ x ∈ l, wfV (g x) = true) → wfA (jarrOf (l.map g)) = true := by
  intro l
  induction l with
  | nil => intro _; rfl
  | cons x xs ih =>
    intro h
    simp [jarrOf, wfA, h x (by simp), ih (fun y hy => h y (by simp [hy]))]

theorem wfV_encPageRule (r : PageRule)
    (hact : r.actions.all (fun a => wfV a.value) = true) :
    wfV (encPageRule r) = true := by
  have hts := wfA_jarrOf_map encTarget r.targets (fun x _ => wfV_encTarget x)
  have has := wfA_jarrOf_map encAction r.actions (fun x hx => wfV_encAction x (by
    rw [List.all_eq_true] at hact
    simpa using hact x hx))
  by_cases hid : r.id = ""
  · simp [encPageRule, hid, jobjOf, wfV, wfO, wfNum_intToNumLit, hts, has]
  · simp [encPageRule, hid, jobjOf, wfV, wfO, wfNum_intToNumLit, hts, has]

theorem wfV_detailEnvelope (res : Json) (h : wfV res = true) :
    wfV (detailEnvelope res) = true := by
  simp [detailEnvelope, jobjOf, wfV, wfO, wfA, h]

/-- Shared core of the round trip: the decode of a server-shaped detail
envelope around the marshalled rule. -/
theorem unmarshalDetail_round (r : PageRule) (hid : r.id = "")
    (h1 : i64Min ≤ r.priority) (h2 : r.priority ≤ i64Max)
    (hact : r.actions.all (fun a => wfV a.value) = true) :
    unmarshalDetail (renderJson (detailEnvelope (encPageRule r)))
      = some ⟨true, [], [], r⟩ := by
  have hwf : wfV (detailEnvelope (encPageRule r)) = true :=
    wfV_detailEnvelope _ (wfV_encPageRule r hact)
  have hp := parseJson_render _ hwf
  have hd := decDetail_envelope (encPageRule r) r (decPageRule_enc r hid h1 h2)
  simp [unmarshalDetail, hp, hd]

/-- **C8.** For every PageRule without server-assigned fields (empty id,
priority in Go's int range, well-formed action values), serializing it as the
request body, wrapping the equivalent rule in a server-shaped detail envelope
(the echo transport does exactly that), and decoding the envelope reproduces
the original targets, actions, priority and status. -/
theorem c8_round_trip (z : String) (rule : PageRule) (hid : rule.id = "")
    (h1 : i64Min ≤ rule.priority) (h2 : rule.priority ≤ i64Max)
    (hact : rule.actions.all (fun a => wfV a.value) = true) :
    (echoAPI.CreatePageRule z rule).2 = none
    ∧ (echoAPI.CreatePageRule z rule).1.targets = rule.targets
    ∧ (echoAPI.CreatePageRule z rule).1.actions = rule.actions
    ∧ (echoAPI.CreatePageRule z rule).1.priority = rule.priority
    ∧ (echoAPI.CreatePageRule z rule).1.status = rule.status := by
  have h := unmarshalDetail_round rule hid h1 h2 hact
  simp [API.CreatePageRule, echoAPI, h]

theorem c8_round_trip_witness :
    (echoAPI.CreatePageRule "023e105f" sampleRule).2 = none
    ∧ (echoAPI.CreatePageRule "023e105f" sampleRule).1.targets = sampleRule.targets
    ∧ (echoAPI.CreatePageRule "023e105f" sampleRule).1.actions = sampleRule.actions
    ∧ (echoAPI.CreatePageRule "023e105f" sampleRule).1.priority = sampleRule.priority
    ∧ (echoAPI.CreatePageRule "023e105f" sampleRule).1.status = sampleRule.status :=
  c8_round_trip "023e105f" sampleRule rfl (by decide) (by decide) (by decide)
